import Mathlib

/-!
Shallow embedding of the `RtlRichTextPrinter` engine (src/src/rtl-support.ts).

Text is modelled as `List Char`, numeric quantities as `ℚ`, and the jsPDF
drawing surface as an explicit `DocState` record carrying the current font,
font size, draw settings and an event log.  Glyph metrics are abstracted as a
width function `Font → List Char → ℚ` stored in the surface, mirroring
`doc.getTextWidth` being evaluated under the currently selected font.
-/

namespace RtlSupport

/-- The eight invisible style marker sentinels (`MARKERS` in the source). -/
def boldStart : Char := '\uE000'

def boldEnd : Char := '\uE001'

def underlineStart : Char := '\uE004'

def underlineEnd : Char := '\uE005'

def strikeStart : Char := '\uE006'

def strikeEnd : Char := '\uE007'

def ltrStart : Char := '\uE008'

def ltrEnd : Char := '\uE009'

/-- A character is one of the eight marker sentinels. -/
def isMarker (c : Char) : Bool :=
  c == boldStart || c == boldEnd || c == underlineStart || c == underlineEnd ||
  c == strikeStart || c == strikeEnd || c == ltrStart || c == ltrEnd

/-- `StyleState` in the source: the boolean style vector. -/
structure StyleState where
  isBold : Bool
  isUnderline : Bool
  isStrike : Bool
  isLtr : Bool
  deriving DecidableEq, Repr

/-- The all-false initial style vector
(`{ isBold: false, isUnderline: false, isStrike: false, isLtr: false }`). -/
def StyleState.init : StyleState := ⟨false, false, false, false⟩

/-- `TextSegment` in the source: a literal run plus the style snapshot. -/
structure TextSegment where
  text : List Char
  isBold : Bool
  isUnderline : Bool
  isStrike : Bool
  isLtr : Bool
  deriving DecidableEq, Repr

/-- `toPersianDigits`: replace each ASCII digit with the Persian digit glyph
(`text.replace(/\d/g, d => persianDigits[parseInt(d)])`). -/
def persianDigit (c : Char) : Char :=
  if c = '0' then '۰' else if c = '1' then '۱' else if c = '2' then '۲'
  else if c = '3' then '۳' else if c = '4' then '۴' else if c = '5' then '۵'
  else if c = '6' then '۶' else if c = '7' then '۷' else if c = '8' then '۸'
  else if c = '9' then '۹' else c

def toPersianDigits (s : List Char) : List Char :=
  s.map persianDigit

/-- `word.split(regex)` where `regex` is the capturing alternation of the eight
single-character markers: JavaScript `String.split` with a capturing group
splices each separator into the result, so the output alternates (possibly
empty) literal chunks and singleton marker chunks. -/
def splitMarkers : List Char → List (List Char)
  | [] => [[]]
  | c :: rest =>
    if isMarker c then [] :: [c] :: splitMarkers rest
    else
      match splitMarkers rest with
      | [] => [[c]]
      | p :: ps => (c :: p) :: ps

/-- The switch statement of `parseSegmentsWithState`, folded over the split
parts: marker parts flip one style bit, non-empty literal parts are emitted as
segments carrying a snapshot of the running vector. -/
def foldParts : List (List Char) → StyleState → List TextSegment × StyleState
  | [], st => ([], st)
  | part :: rest, st =>
    if part = [boldStart] then foldParts rest { st with isBold := true }
    else if part = [boldEnd] then foldParts rest { st with isBold := false }
    else if part = [underlineStart] then foldParts rest { st with isUnderline := true }
    else if part = [underlineEnd] then foldParts rest { st with isUnderline := false }
    else if part = [strikeStart] then foldParts rest { st with isStrike := true }
    else if part = [strikeEnd] then foldParts rest { st with isStrike := false }
    else if part = [ltrStart] then foldParts rest { st with isLtr := true }
    else if part = [ltrEnd] then foldParts rest { st with isLtr := false }
    else if part = [] then foldParts rest st
    else
      let r := foldParts rest st
      (⟨part, st.isBold, st.isUnderline, st.isStrike, st.isLtr⟩ :: r.1, r.2)

/-- `parseSegmentsWithState` from the source: split the word on the marker
alphabet and fold the parts through the style switch. -/
def parseSegmentsWithState (word : List Char) (st : StyleState) :
    List TextSegment × StyleState :=
  foldParts (splitMarkers word) st

/-- One-marker transition of the style vector: each START marker sets its bit,
each END marker clears it, all other characters leave the vector unchanged. -/
def applyMarker (c : Char) (st : StyleState) : StyleState :=
  if c = boldStart then { st with isBold := true }
  else if c = boldEnd then { st with isBold := false }
  else if c = underlineStart then { st with isUnderline := true }
  else if c = underlineEnd then { st with isUnderline := false }
  else if c = strikeStart then { st with isStrike := true }
  else if c = strikeEnd then { st with isStrike := false }
  else if c = ltrStart then { st with isLtr := true }
  else if c = ltrEnd then { st with isLtr := false }
  else st

/-- Helper bound for well-founded recursions over character scans. -/
theorem length_dropWhile_le (p : Char → Bool) (l : List Char) :
    (l.dropWhile p).length ≤ l.length := by
  induction l with
  | nil => simp [List.dropWhile]
  | cons c rest ih =>
    by_cases h : p c
    · simp [List.dropWhile, h]; omega
    · simp [List.dropWhile, h]

/-- Direct character-level description of segmentation (the specification's
reading): walk the word, each marker flips exactly one boolean, each maximal
marker-free run becomes a segment snapshotting the vector at that point. -/
def segDirect : List Char → StyleState → List TextSegment × StyleState
  | [], st => ([], st)
  | c :: w, st =>
    if h : isMarker c then segDirect w (applyMarker c st)
    else
      let run := (c :: w).takeWhile (fun x => !(isMarker x))
      let rest := (c :: w).dropWhile (fun x => !(isMarker x))
      let r := segDirect rest st
      (⟨run, st.isBold, st.isUnderline, st.isStrike, st.isLtr⟩ :: r.1, r.2)
  termination_by w _ => w.length
  decreasing_by
    · simp_wf
    · simp_wf
      simp only [List.dropWhile, h, Bool.not_false]
      have := length_dropWhile_le (fun x => !(isMarker x)) w
      omega

/-- `stripMarkers` from the source: the global replace of the single-character
marker alternation by the empty string, i.e. dropping every marker sentinel. -/
def stripMarkers (s : List Char) : List Char :=
  s.filter (fun c => !(isMarker c))



/-! ### Preprocessing: the `preprocessText` regex pipeline -/

/-- ASCII letter, the `[A-Za-z]` class. -/
def isAsciiLetter (c : Char) : Bool :=
  ('A' ≤ c && c ≤ 'Z') || ('a' ≤ c && c ≤ 'z')

/-- JavaScript `\s`: ASCII whitespace plus the Unicode space separators. -/
def isJsSpace (c : Char) : Bool :=
  c == ' ' || c == '\t' || c == '\n' || c == '\r' || c.val == 11 || c.val == 12 ||
  c.val == 0xa0 || c.val == 0x1680 || (0x2000 ≤ c.val && c.val ≤ 0x200a) ||
  c.val == 0x2028 || c.val == 0x2029 || c.val == 0x202f || c.val == 0x205f ||
  c.val == 0x3000 || c.val == 0xfeff

/-- JavaScript line terminators, which `.` does not match. -/
def isLineTerm (c : Char) : Bool :=
  c == '\n' || c == '\r' || c.val == 0x2028 || c.val == 0x2029

/-- Case-insensitive prefix match (the `i` regex flag restricted to the ASCII
tag names used by the source); on success returns the actually matched text
(the backreference capture) and the remainder. -/
def ciMatch : List Char → List Char → Option (List Char × List Char)
  | [], s => some ([], s)
  | _ :: _, [] => none
  | p :: ps, c :: s =>
    if c.toLower = p.toLower then
      match ciMatch ps s with
      | some r => some (c :: r.1, r.2)
      | none => none
    else none

theorem ciMatch_length : ∀ (ps s m r : List Char), ciMatch ps s = some (m, r) →
    r.length + ps.length = s.length := by
  intro ps
  induction ps with
  | nil => intro s m r h; simp [ciMatch] at h; simp [h.2]
  | cons p ps ih =>
    intro s m r h
    cases s with
    | nil => simp [ciMatch] at h
    | cons c s' =>
      simp only [ciMatch] at h
      split at h
      · split at h
        · next q hq =>
          obtain ⟨m', r'⟩ := q
          have := ih s' m' r' hq
          simp at h
          simp [← h.2, this.symm]
          omega
        · exact absurd h (by simp)
      · exact absurd h (by simp)

/-- The closing-tag pattern `<\/\1>` with the case-insensitive backreference. -/
def matchClose (tag : List Char) : List Char → Option (List Char)
  | '<' :: '/' :: s =>
    match ciMatch tag s with
    | some (_, '>' :: r) => some r
    | _ => none
  | _ => none

theorem matchClose_length (tag s r : List Char) (h : matchClose tag s = some r) :
    r.length + 3 ≤ s.length := by
  unfold matchClose at h
  split at h
  · next s' =>
    split at h
    · next m rIn hm =>
      cases h
      have := ciMatch_length tag s' m ('>' :: r) hm
      simp only [List.length_cons] at this ⊢
      omega
    · simp at h
  · simp at h

/-- The non-greedy `(.*?)` search: take the shortest run of non-line-terminator
characters after which the closing tag matches; returns the captured content
and the remainder after the full match. -/
def findContent (tag : List Char) : List Char → Option (List Char × List Char)
  | [] =>
    match matchClose tag [] with
    | some r => some ([], r)
    | none => none
  | c :: s' =>
    match matchClose tag (c :: s') with
    | some r => some ([], r)
    | none =>
      if isLineTerm c then none
      else
        match findContent tag s' with
        | some q => some (c :: q.1, q.2)
        | none => none

theorem findContent_length : ∀ (s : List Char) (tag content r : List Char),
    findContent tag s = some (content, r) → r.length < s.length := by
  intro s
  induction s with
  | nil =>
    intro tag content r h
    unfold findContent at h
    split at h
    · next r' hm => exact absurd (matchClose_length tag [] r' hm) (by simp)
    · simp at h
  | cons c s' ih =>
    intro tag content r h
    unfold findContent at h
    split at h
    · next r' hm =>
      have := matchClose_length tag (c :: s') r' hm
      simp only [Option.some.injEq, Prod.mk.injEq] at h
      simp only [List.length_cons, ← h.2] at *
      omega
    · split at h
      · simp at h
      · split at h
        · next q hq =>
          obtain ⟨c', r'⟩ := q
          simp only [Option.some.injEq, Prod.mk.injEq] at h
          have := ih tag c' r' hq
          simp only [List.length_cons, ← h.2]
          omega
        · simp at h

/-- One alternative of the opening group `<(b|strong)>` etc., tried at the
position just after a `<`: match the tag name case-insensitively then `>`;
returns the captured tag text and the remainder. -/
def tryOpen (name : List Char) (s : List Char) : Option (List Char × List Char) :=
  match ciMatch name s with
  | some (m, '>' :: r) => some (m, r)
  | _ => none

theorem tryOpen_length (name s m r : List Char) (h : tryOpen name s = some (m, r)) :
    r.length < s.length := by
  unfold tryOpen at h
  split at h
  · next m' rIn hm =>
    simp only [Option.some.injEq, Prod.mk.injEq] at h
    obtain ⟨rfl, rfl⟩ := h
    have := ciMatch_length name s m' ('>' :: rIn) hm
    simp only [List.length_cons] at this
    omega
  · simp at h

/-- Try each alternative tag name in regex alternation order; an alternative
that opens but never finds its (backreferenced) closing tag is abandoned and
the next alternative is tried, as regex backtracking does. -/
def tryNames (names : List (List Char)) (s : List Char) : Option (List Char × List Char) :=
  match names with
  | [] => none
  | n :: ns =>
    match tryOpen n s with
    | some (tagText, afterOpen) =>
      match findContent tagText afterOpen with
      | some q => some q
      | none => tryNames ns s
    | none => tryNames ns s

theorem tryNames_length : ∀ (names : List (List Char)) (s content r : List Char),
    tryNames names s = some (content, r) → r.length < s.length := by
  intro names
  induction names with
  | nil => intro s content r h; simp [tryNames] at h
  | cons n ns ih =>
    intro s content r h
    unfold tryNames at h
    split at h
    · next tagText afterOpen hopen =>
      split at h
      · rename_i q hq
        obtain ⟨content', r'⟩ := q
        simp only [Option.some.injEq, Prod.mk.injEq] at h
        obtain ⟨rfl, rfl⟩ := h
        have h1 := findContent_length afterOpen tagText content' r' hq
        have h2 := tryOpen_length n s tagText afterOpen hopen
        omega
      · exact ih s content r h
    · exact ih s content r h

/-- One global-replace pass of `<(name₁|name₂|…)>(.*?)<\/\1>` by
`START $2 END`: scan left to right, replace each non-overlapping match and
continue after it (the inserted markers are not rescanned in this pass). -/
def replaceStyleOnce (names : List (List Char)) (startM endM : Char) : List Char → List Char
  | [] => []
  | c :: s =>
    if c = '<' then
      match h : tryNames names s with
      | some (content, rest) =>
        startM :: (content ++ endM :: replaceStyleOnce names startM endM rest)
      | none => c :: replaceStyleOnce names startM endM s
    else c :: replaceStyleOnce names startM endM s
  termination_by s => s.length
  decreasing_by
    all_goals simp_wf
    have := tryNames_length names _ content rest h
    omega

/-- The `while (processed !== previous)` fixed-point loop of one style family,
run with explicit fuel.  Each replaced match of length `n + 2·|tag| + 5` is
rewritten to `n + 2` characters, so a changing pass shrinks the string by at
least five characters and `length + 1` units of fuel always reach the
fixed point the source loop computes. -/
def styleFixN (names : List (List Char)) (startM endM : Char) : Nat → List Char → List Char
  | 0, s => s
  | fuel + 1, s =>
    let s' := replaceStyleOnce names startM endM s
    if s' = s then s else styleFixN names startM endM fuel s'

/-- `<br\s*\/?>` at the position just after a `<` (case-insensitive). -/
def matchBr (s : List Char) : Option (List Char) :=
  match ciMatch ['b', 'r'] s with
  | some (_, r) =>
    match r.dropWhile isJsSpace with
    | '/' :: '>' :: rest => some rest
    | '>' :: rest => some rest
    | _ => none
  | none => none

theorem matchBr_length (s rest : List Char) (h : matchBr s = some rest) :
    rest.length < s.length := by
  unfold matchBr at h
  split at h
  · next m r hm =>
    have hr := ciMatch_length ['b', 'r'] s m r hm
    have hd := length_dropWhile_le isJsSpace r
    split at h
    · next rest' hdrop =>
      cases h
      have : rest.length + 2 = (r.dropWhile isJsSpace).length := by rw [hdrop]; simp
      simp only [List.length_cons] at hr
      omega
    · next rest' hdrop =>
      cases h
      have : rest.length + 1 = (r.dropWhile isJsSpace).length := by rw [hdrop]; simp
      simp only [List.length_cons] at hr
      omega
    · simp at h
  · simp at h

/-- The `processed.replace(/<br\s*\/?>/gi, '\n')` pass. -/
def brPass : List Char → List Char
  | [] => []
  | c :: s =>
    if c = '<' then
      match h : matchBr s with
      | some rest => '\n' :: brPass rest
      | none => c :: brPass s
    else c :: brPass s
  termination_by s => s.length
  decreasing_by
    all_goals simp_wf
    have := matchBr_length _ rest h
    omega

/-- The `processed.replace(/<[^>]+>/g, '')` pass: drop every `<`, a non-empty
run of non-`>` characters, and the following `>`. -/
def removeTags : List Char → List Char
  | [] => []
  | c :: s =>
    if c = '<' then
      let gap := s.takeWhile (fun x => x != '>')
      match h : s.dropWhile (fun x => x != '>') with
      | '>' :: rest => if gap.isEmpty then c :: removeTags s else removeTags rest
      | _ => c :: removeTags s
    else c :: removeTags s
  termination_by s => s.length
  decreasing_by
    all_goals simp_wf
    rename_i s0 hc
    have h2 := length_dropWhile_le (fun x => x != '>') s0
    rw [h] at h2
    simp only [List.length_cons] at h2
    omega

/-- The character class
`[A-Za-z0-9\s.,:;?!'"()\[\]{}&*-]` of the auto-LTR-wrap regex. -/
def isLtrClassChar (c : Char) : Bool :=
  isAsciiLetter c || c.isDigit || isJsSpace c ||
  c == '.' || c == ',' || c == ':' || c == ';' || c == '?' || c == '!' ||
  c == '\'' || c == '"' || c == '(' || c == ')' || c == '[' || c == ']' ||
  c == Char.ofNat 123 || c == Char.ofNat 125 || c == '&' || c == '*' || c == '-'

theorem letter_isLtrClassChar {c : Char} (h : isAsciiLetter c = true) :
    isLtrClassChar c = true := by
  simp [isLtrClassChar, h]

/-- The `/([A-Za-z]+[A-Za-z0-9\s.,:;?!'"()\[\]{}&*-]*)/g` replacement with the
wrap-unless-already-marked callback: every maximal class run starting at an
ASCII letter is wrapped in LTR markers unless the matched text already
contains one. -/
def ltrWrapPass : List Char → List Char
  | [] => []
  | c :: rest =>
    if h : isAsciiLetter c then
      let run := (c :: rest).takeWhile isLtrClassChar
      let rest' := (c :: rest).dropWhile isLtrClassChar
      (if run.any (fun x => x == ltrStart || x == ltrEnd) then run
       else ltrStart :: (run ++ [ltrEnd])) ++ ltrWrapPass rest'
    else c :: ltrWrapPass rest
  termination_by s => s.length
  decreasing_by
    · simp_wf
      simp only [List.dropWhile, letter_isLtrClassChar h]
      have := length_dropWhile_le isLtrClassChar rest
      omega
    · simp_wf

theorem length_drop_le (l : List Char) (n : Nat) : (l.drop n).length ≤ l.length := by
  simp

/-- Exact prefix test for `replaceAll`. -/
def listStarts : List Char → List Char → Bool
  | [], _ => true
  | _ :: _, [] => false
  | p :: ps, c :: s => p == c && listStarts ps s

/-- JavaScript global replace of a fixed non-empty pattern string: scan left to
right, replacing non-overlapping occurrences, resuming after each replacement
(the replacement text is not rescanned). -/
def replaceAll (pat rep : List Char) : List Char → List Char
  | [] => []
  | c :: s =>
    if pat ≠ [] ∧ listStarts pat (c :: s) = true then
      rep ++ replaceAll pat rep (s.drop (pat.length - 1))
    else c :: replaceAll pat rep s
  termination_by s => s.length
  decreasing_by
    all_goals simp_wf
    rename_i s0
    have := length_drop_le rest (pat.length - 1)
    omega

/-- Occurrence test used to reason about `replaceAll`. -/
def containsSeq (pat : List Char) : List Char → Bool
  | [] => listStarts pat []
  | c :: s => listStarts pat (c :: s) || containsSeq pat s

/-- The literal placeholder `'__TEMP_OPEN__'` of the parenthesis swap. -/
def tempOpen : List Char :=
  ['_', '_', 'T', 'E', 'M', 'P', '_', 'O', 'P', 'E', 'N', '_', '_']

/-- The parenthesis mirroring pass:
`replace(/\(/g,'__TEMP_OPEN__').replace(/\)/g,'(').replace(/__TEMP_OPEN__/g,')')`. -/
def parenPass (s : List Char) : List Char :=
  replaceAll tempOpen [')'] (replaceAll [')'] ['('] (replaceAll ['('] tempOpen s))

def boldNames : List (List Char) := ["b".toList, "strong".toList]

def underlineNames : List (List Char) := ["u".toList, "ins".toList]

def strikeNames : List (List Char) := ["s".toList, "strike".toList, "del".toList]

def ltrNamesList : List (List Char) := ["ltr".toList]

/-- `preprocessText` from the source: `<br>` normalization, the four style-tag
fixed-point passes in source order (bold, underline, strike, ltr), auto-LTR
wrapping, leftover tag removal, and the parenthesis swap. -/
def preprocessText (t : List Char) : List Char :=
  let s1 := brPass t
  let s2 := styleFixN boldNames boldStart boldEnd (s1.length + 1) s1
  let s3 := styleFixN underlineNames underlineStart underlineEnd (s2.length + 1) s2
  let s4 := styleFixN strikeNames strikeStart strikeEnd (s3.length + 1) s3
  let s5 := styleFixN ltrNamesList ltrStart ltrEnd (s4.length + 1) s4
  let s6 := ltrWrapPass s5
  let s7 := removeTags s6
  parenPass s7

/-- `tokenize`: split on the space character and drop empty tokens. -/
def tokenize (s : List Char) : List (List Char) :=
  (s.splitOn ' ').filter (fun w => w ≠ [])

/-- Pointwise parenthesis mirror, used to state what the paren pass does. -/
def swapParen (c : Char) : Char :=
  if c = '(' then ')' else if c = ')' then '(' else c


/-! ### The drawing surface (jsPDF abstraction) and the printer -/

/-- A font selection on the drawing surface (`getFont()` name and style). -/
structure Font where
  name : String
  style : String
  deriving DecidableEq, Repr

/-- Observable drawing-surface calls: `doc.text`, `doc.line`, `doc.addPage`.
A text event records the font selected at paint time and the bidi hint. -/
inductive PaintEvent where
  | text (s : List Char) (x y : ℚ) (font : Font) (rtl : Bool)
  | line (x1 y1 x2 y2 : ℚ)
  | addPage
  deriving DecidableEq, Repr

/-- The mutable drawing surface: glyph metrics (`getTextWidth` under the
current font) are abstracted as the width function `measureW`. -/
structure DocState where
  measureW : Font → List Char → ℚ
  pageWidth : ℚ
  pageHeight : ℚ
  font : Font
  fontSize : ℚ
  lineW : ℚ
  drawColor : ℕ × ℕ × ℕ
  dash : List ℚ × ℚ
  events : List PaintEvent

def setFont (doc : DocState) (n st : String) : DocState := { doc with font := ⟨n, st⟩ }

def getTextWidth (doc : DocState) (s : List Char) : ℚ := doc.measureW doc.font s

def setLineWidth (doc : DocState) (v : ℚ) : DocState := { doc with lineW := v }

def setDrawColor (doc : DocState) (r g b : ℕ) : DocState := { doc with drawColor := (r, g, b) }

def setLineDash (doc : DocState) (pat : List ℚ) (phase : ℚ) : DocState :=
  { doc with dash := (pat, phase) }

def paintText (doc : DocState) (s : List Char) (x y : ℚ) (rtl : Bool) : DocState :=
  { doc with events := doc.events ++ [.text s x y doc.font rtl] }

def paintLine (doc : DocState) (x1 y1 x2 y2 : ℚ) : DocState :=
  { doc with events := doc.events ++ [.line x1 y1 x2 y2] }

def addPage (doc : DocState) : DocState := { doc with events := doc.events ++ [.addPage] }

inductive Align where
  | right
  | center
  | left
  deriving DecidableEq, Repr

/-- `RtlPrinterConfig`: optional fields model the `?` / `??` defaults. -/
structure RtlPrinterConfig where
  maxWidth : ℚ
  lineHeight : ℚ
  defaultStartX : Option ℚ
  align : Option Align
  justify : Option Bool
  marginTop : Option ℚ
  marginBottom : Option ℚ
  footerHeight : Option ℚ
  headerHeight : Option ℚ
  onPageBreak : Option (Nat → ℚ)
  fontName : String
  convertDigitsToPersian : Option Bool
  underlineOffsetRatio : Option ℚ
  strikeOffsetRatio : Option ℚ

/-- The readonly printer fields set by the constructor. -/
structure Printer where
  maxWidth : ℚ
  lineHeight : ℚ
  defaultStartX : ℚ
  align : Align
  justify : Bool
  marginTop : ℚ
  marginBottom : ℚ
  footerHeight : ℚ
  headerHeight : ℚ
  pageHeight : ℚ
  onPageBreak : Option (Nat → ℚ)
  fontName : String
  convertDigitsToPersian : Bool
  underlineOffsetRatio : ℚ
  strikeOffsetRatio : ℚ

/-- The constructor (lines 87–106): in particular
`this.maxWidth = config.maxWidth - 5` (the fixed safety buffer) and the
documented defaults.  The page counter starts at 1 and is threaded
explicitly through the functions below. -/
def mkPrinter (doc : DocState) (config : RtlPrinterConfig) : Printer :=
  { maxWidth := config.maxWidth - 5
    lineHeight := config.lineHeight
    defaultStartX := config.defaultStartX.getD (doc.pageWidth - 10)
    align := config.align.getD Align.right
    justify := config.justify.getD true
    marginTop := config.marginTop.getD 10
    marginBottom := config.marginBottom.getD 10
    footerHeight := config.footerHeight.getD 0
    headerHeight := config.headerHeight.getD 0
    pageHeight := doc.pageHeight
    onPageBreak := config.onPageBreak
    fontName := config.fontName
    convertDigitsToPersian := config.convertDigitsToPersian.getD true
    underlineOffsetRatio := config.underlineOffsetRatio.getD (18 / 100)
    strikeOffsetRatio := config.strikeOffsetRatio.getD (1 / 10) }

/-- The measuring loop of `getWordWidthWithState`: per segment select the
style-appropriate font, digit-localize unless forced-LTR, and query the
surface for the width of that exact string. -/
def measureSegs (p : Printer) : DocState → List TextSegment → ℚ × DocState
  | doc, [] => (0, doc)
  | doc, seg :: rest =>
    let doc1 := setFont doc p.fontName (if seg.isBold then "bold" else "normal")
    let textForMeasure :=
      if p.convertDigitsToPersian && !seg.isLtr then toPersianDigits seg.text else seg.text
    let w := getTextWidth doc1 textForMeasure
    let r := measureSegs p doc1 rest
    (w + r.1, r.2)

/-- `getWordWidthWithState` (lines 267–280): parse, measure each segment,
restore the pre-call font. -/
def getWordWidthWithState (p : Printer) (doc : DocState) (word : List Char)
    (state : StyleState) : ℚ × StyleState × DocState :=
  let pr := parseSegmentsWithState word state
  let currentFont := doc.font
  let m := measureSegs p doc pr.1
  (m.1, pr.2, setFont m.2 currentFont.name currentFont.style)

/-- The decoration block of the segment loop (lines 433–460): when the segment
carries a decoration, extend the line's edges by the 0.3 overlap toward any
decorated positional neighbour, set dash and colour, and draw the underline
and/or strike lines. -/
def renderSegDecor (p : Printer) (fontSize y overlap x segmentWidth : ℚ)
    (prev next : Option TextSegment) (seg : TextSegment) (doc : DocState) : DocState :=
  if seg.isUnderline || seg.isStrike then
    let rightX := x + (match prev with
      | some ps => if ps.isUnderline || ps.isStrike then overlap else 0
      | none => 0)
    let leftX := x - segmentWidth - (match next with
      | some ns => if ns.isUnderline || ns.isStrike then overlap else 0
      | none => 0)
    let d1 := setLineDash doc [0] 0
    let d2 := setDrawColor d1 0 0 0
    let underlineY := y + fontSize * p.underlineOffsetRatio
    let strikeY := y - fontSize * p.strikeOffsetRatio
    let d3 := if seg.isUnderline then paintLine d2 rightX underlineY leftX underlineY else d2
    let d4 := if seg.isStrike then paintLine d3 rightX strikeY leftX strikeY else d3
    d4
  else doc

/-- The segment loop of `renderWordWithState`: paint each non-empty segment at
the cursor, draw its decorations with the ±0.3 overlap toward decorated
neighbours, advance the cursor left by the segment width, restore the font. -/
def renderSegs (p : Printer) (fontSize y : ℚ) :
    DocState → ℚ → Option TextSegment → List TextSegment → DocState × ℚ
  | doc, x, prev, [] => (doc, x)
  | doc, x, prev, seg :: rest =>
    if seg.text = [] then renderSegs p fontSize y doc x (some seg) rest
    else
      let overlap : ℚ := 3 / 10
      let hasPersianChar := seg.text.any (fun c => 0x600 ≤ c.val && c.val ≤ 0x6FF)
      let isRtlOutput := !seg.isLtr && hasPersianChar
      let fontStyle := if seg.isBold then "bold" else "normal"
      let currentFont := doc.font
      let doc1 := setFont doc p.fontName fontStyle
      let printableText :=
        if p.convertDigitsToPersian && !seg.isLtr then toPersianDigits seg.text else seg.text
      let segmentWidth := getTextWidth doc1 printableText
      let doc2 := paintText doc1 printableText x y isRtlOutput
      let doc3 := renderSegDecor p fontSize y overlap x segmentWidth prev rest.head? seg doc2
      let doc4 := setFont doc3 currentFont.name currentFont.style
      renderSegs p fontSize y doc4 (x - segmentWidth) (some seg) rest

/-- `renderWordWithState` (lines 397–474). -/
def renderWordWithState (p : Printer) (doc : DocState) (word : List Char) (x y : ℚ)
    (state : StyleState) : DocState × ℚ × StyleState :=
  let pr := parseSegmentsWithState word state
  let fontSize := doc.fontSize
  let doc1 := setLineWidth doc (3 / 20)
  let r := renderSegs p fontSize y doc1 x none pr.1
  let doc2 := setFont r.1 p.fontName "normal"
  (doc2, r.2, pr.2)

/-- The `words.reduce` total-width fold used by both line renderers: thread
the style state through `getWordWidthWithState` and sum the widths. -/
def sumWordWidths (p : Printer) : DocState → StyleState → List (List Char) → ℚ × StyleState × DocState
  | doc, st, [] => (0, st, doc)
  | doc, st, w :: ws =>
    let r := getWordWidthWithState p doc w st
    let rest := sumWordWidths p r.2.2 r.2.1 ws
    (r.1 + rest.1, rest.2.1, rest.2.2)

/-- The inter-word gap decorations (regular lines 371–385, justified 317–330):
when the style state carried past the word has underline/strike set, draw the
decoration line across the gap `[x - gapWidth, x]`; the regular renderer
additionally sets the draw colour before each gap line. -/
def renderGapDecor (p : Printer) (fontSize y gapWidth : ℚ) (colorOnGap : Bool)
    (x : ℚ) (st : StyleState) (doc : DocState) : DocState :=
  let rightX := x
  let leftX := x - gapWidth
  let underlineY := y + fontSize * p.underlineOffsetRatio
  let strikeY := y - fontSize * p.strikeOffsetRatio
  let d1 := if st.isUnderline then
      paintLine (if colorOnGap then setDrawColor doc 0 0 0 else doc) rightX underlineY leftX underlineY
    else doc
  let d2 := if st.isStrike then
      paintLine (if colorOnGap then setDrawColor d1 0 0 0 else d1) rightX strikeY leftX strikeY
    else d1
  d2

/-- The word-painting walk shared by both line renderers: paint each word at
the cursor, and between words draw gap decorations, then advance left by the
gap width. -/
def renderWalk (p : Printer) (gapWidth fontSize y : ℚ) (colorOnGap : Bool) :
    DocState → ℚ → StyleState → List (List Char) → DocState × ℚ × StyleState
  | doc, x, st, [] => (doc, x, st)
  | doc, x, st, w :: ws =>
    let r := renderWordWithState p doc w x y st
    match ws with
    | [] => (r.1, r.2.1, r.2.2)
    | _ :: _ =>
      let d2 := renderGapDecor p fontSize y gapWidth colorOnGap r.2.1 r.2.2 r.1
      renderWalk p gapWidth fontSize y colorOnGap d2 (r.2.1 - gapWidth) r.2.2 ws

/-- `renderRegularLine` (lines 334–387): alignment offset for non-right
alignment, then the standard-gap walk.  The returned rational is the final
cursor position (discarded by the source but exposed here). -/
def renderRegularLine (p : Printer) (doc : DocState) (words : List (List Char))
    (startX y : ℚ) (initialState : StyleState) : DocState × ℚ :=
  let spaceWidth := getTextWidth doc [' ']
  if p.align = Align.right then
    let r := renderWalk p spaceWidth doc.fontSize y true doc startX initialState words
    (r.1, r.2.1)
  else
    let t := sumWordWidths p doc initialState words
    let lineLength := t.1 + ((words.length : ℚ) - 1) * spaceWidth
    let remainingWidth := p.maxWidth - lineLength
    let alignmentOffset := if p.align = Align.left then remainingWidth else remainingWidth / 2
    let r := renderWalk p spaceWidth t.2.2.fontSize y true t.2.2 (startX - alignmentOffset) initialState words
    (r.1, r.2.1)

/-- `renderJustifiedLine` (lines 290–332): measure the total, fall back to the
regular renderer when there are no gaps, otherwise distribute the shortfall
evenly over the gaps with no clamping. -/
def renderJustifiedLine (p : Printer) (doc : DocState) (words : List (List Char))
    (startX y : ℚ) (initialState : StyleState) : DocState × ℚ :=
  let t := sumWordWidths p doc initialState words
  let totalWordsWidth := t.1
  let doc1 := t.2.2
  let spacesCount : ℤ := (words.length : ℤ) - 1
  if spacesCount ≤ 0 then renderRegularLine p doc1 words startX y initialState
  else
    let spaceWidth := getTextWidth doc1 [' ']
    let extraSpacePerGap :=
      (p.maxWidth - totalWordsWidth - spaceWidth * (spacesCount : ℚ)) / (spacesCount : ℚ)
    let r := renderWalk p (spaceWidth + extraSpacePerGap) doc1.fontSize y false doc1 startX initialState words
    (r.1, r.2.1)

/-- `renderLine` (lines 282–288): dispatch on `shouldJustify && align === 'right'`. -/
def renderLine (p : Printer) (doc : DocState) (words : List (List Char))
    (startX y : ℚ) (shouldJustify : Bool) (initialState : StyleState) : DocState :=
  if shouldJustify = true ∧ p.align = Align.right then
    (renderJustifiedLine p doc words startX y initialState).1
  else
    (renderRegularLine p doc words startX y initialState).1

/-- `checkPageBreak` (lines 505–519), returning the next baseline, the new
page counter and the surface (with an `addPage` event when a break fired). -/
def checkPageBreak (p : Printer) (doc : DocState) (pageCounter : Nat) (y : ℚ) :
    ℚ × Nat × DocState :=
  let threshold := p.pageHeight - p.footerHeight - p.marginBottom
  if y + p.lineHeight + 2 > threshold then
    let doc1 := addPage doc
    let pc1 := pageCounter + 1
    match p.onPageBreak with
    | some f => (f pc1, pc1, doc1)
    | none => (p.marginTop + p.headerHeight, pc1, doc1)
  else (y, pageCounter, doc)

/-- Ghost record of one `renderLine` call made by `renderWords`: the line's
words, the style vector passed as its starting state, the `shouldJustify`
argument, and whether the call came from a mid-loop break (true) or from the
final flush (false). -/
structure LineRec where
  words : List (List Char)
  startState : StyleState
  justifyArg : Bool
  fromBreak : Bool
  deriving DecidableEq, Repr

/-- The loop state of `renderWords`, plus the ghost trace of lines rendered. -/
structure WrapAcc where
  y : ℚ
  pc : Nat
  doc : DocState
  lineWords : List (List Char)
  lineWidth : ℚ
  state : StyleState
  lineStart : StyleState
  trace : List LineRec

/-- The body of the `for (const word of words)` loop in `renderWords`
(lines 238–256). -/
def renderWordsStep (p : Printer) (justify : Bool) (startX spaceWidth : ℚ)
    (acc : WrapAcc) (word : List Char) : WrapAcc :=
  let spaceToUse := if 0 < acc.lineWords.length then spaceWidth else 0
  let m := getWordWidthWithState p acc.doc word acc.state
  let wordWidth := m.1
  let nextState := m.2.1
  let doc := m.2.2
  if acc.lineWidth + wordWidth + spaceToUse > p.maxWidth then
    let cpb := checkPageBreak p doc acc.pc acc.y
    let jarg := justify && decide (1 < acc.lineWords.length)
    let doc2 := renderLine p cpb.2.2 acc.lineWords startX cpb.1 jarg acc.lineStart
    { y := cpb.1 + p.lineHeight
      pc := cpb.2.1
      doc := doc2
      lineWords := [word]
      lineWidth := wordWidth
      state := nextState
      lineStart := acc.state
      trace := acc.trace ++ [⟨acc.lineWords, acc.lineStart, jarg, true⟩] }
  else
    { acc with
      lineWords := acc.lineWords ++ [word]
      lineWidth := acc.lineWidth + wordWidth + spaceToUse
      state := nextState
      doc := doc }

/-- The final flush of `renderWords` (lines 258–262): the last line of the
paragraph is always rendered with `shouldJustify = false`. -/
def renderWordsFinish (p : Printer) (startX : ℚ) (acc : WrapAcc) : WrapAcc :=
  if 0 < acc.lineWords.length then
    let cpb := checkPageBreak p acc.doc acc.pc acc.y
    let doc2 := renderLine p cpb.2.2 acc.lineWords startX cpb.1 false acc.lineStart
    { acc with
      y := cpb.1 + p.lineHeight
      pc := cpb.2.1
      doc := doc2
      trace := acc.trace ++ [⟨acc.lineWords, acc.lineStart, false, false⟩] }
  else acc

/-- `renderWords` (lines 229–265): greedy line packing of one paragraph. -/
def renderWords (p : Printer) (doc : DocState) (pageCounter : Nat)
    (words : List (List Char)) (startX startY : ℚ) (justify : Bool) : WrapAcc :=
  let spaceWidth := getTextWidth doc [' ']
  let acc0 : WrapAcc :=
    { y := startY, pc := pageCounter, doc := doc, lineWords := [], lineWidth := 0,
      state := StyleState.init, lineStart := StyleState.init, trace := [] }
  renderWordsFinish p startX (words.foldl (renderWordsStep p justify startX spaceWidth) acc0)

/-! ### Pure characterizations used by the theorems -/

/-- The font `getWordWidthWithState` selects for a segment. -/
def styleFont (p : Printer) (seg : TextSegment) : Font :=
  ⟨p.fontName, if seg.isBold then "bold" else "normal"⟩

/-- The exact string whose width is queried / that is painted for a segment:
digit-localized exactly when localization is on and the segment is not
forced-LTR. -/
def localizedText (p : Printer) (seg : TextSegment) : List Char :=
  if p.convertDigitsToPersian && !seg.isLtr then toPersianDigits seg.text else seg.text

/-- The (font, string) pairs measurement queries for a segment list. -/
def segQueries (p : Printer) (segs : List TextSegment) : List (Font × List Char) :=
  segs.map (fun seg => (styleFont p seg, localizedText p seg))

def queriesWidth (W : Font → List Char → ℚ) (qs : List (Font × List Char)) : ℚ :=
  (qs.map (fun q => W q.1 q.2)).sum

/-- The width `getWordWidthWithState` returns, as a pure function of the
width oracle. -/
def wordWidthPure (p : Printer) (W : Font → List Char → ℚ) (word : List Char)
    (st : StyleState) : ℚ :=
  queriesWidth W (segQueries p (parseSegmentsWithState word st).1)

def nextStateOf (word : List Char) (st : StyleState) : StyleState :=
  (parseSegmentsWithState word st).2

def stateAfter (words : List (List Char)) (st : StyleState) : StyleState :=
  words.foldl (fun s w => nextStateOf w s) st

/-- The (font, string) pairs of the text paint events in an event list. -/
def textEventsOf (evs : List PaintEvent) : List (Font × List Char) :=
  evs.filterMap (fun e =>
    match e with
    | .text s _ _ f _ => some (f, s)
    | _ => none)

/-- The x-coordinates of the text paint events in an event list. -/
def textXs (evs : List PaintEvent) : List ℚ :=
  evs.filterMap (fun e =>
    match e with
    | .text _ x _ _ _ => some x
    | _ => none)

/-- The cursor positions at which successive segment queries are painted:
each segment paints at the running cursor, which then moves left by that
segment's width. -/
def segXs (W : Font → List Char → ℚ) (x : ℚ) : List (Font × List Char) → List ℚ
  | [] => []
  | q :: qs => x :: segXs W (x - W q.1 q.2) qs

/-- Total width of a word list under a threaded style state (the pure value of
the `words.reduce` folds). -/
def wordsWidthPure (p : Printer) (W : Font → List Char → ℚ) :
    StyleState → List (List Char) → ℚ
  | _, [] => 0
  | st, w :: ws => wordWidthPure p W w st + wordsWidthPure p W (nextStateOf w st) ws

/-- The packed width of a line: word widths (threaded from the line-start
state) plus one space width per gap. -/
def lineContentWidth (p : Printer) (W : Font → List Char → ℚ) (sw : ℚ)
    (st : StyleState) (ws : List (List Char)) : ℚ :=
  match ws with
  | [] => 0
  | _ => wordsWidthPure p W st ws + ((ws.length : ℚ) - 1) * sw

/-- Whether a `renderLine` call with this `shouldJustify` argument actually
runs the justified distribution: the dispatch `shouldJustify && align ===
'right'` of `renderLine` together with the `spacesCount <= 0` fallback of
`renderJustifiedLine`. -/
def justifiedRenderApplies (p : Printer) (shouldJustify : Bool)
    (words : List (List Char)) : Bool :=
  (shouldJustify && decide (p.align = Align.right)) && decide (0 < (words.length : ℤ) - 1)

/-- All words of a trace prefix, in order. -/
def traceWords (recs : List LineRec) : List (List Char) :=
  (recs.map LineRec.words).join

/-- No occurrence of the character `c`. -/
def noChar (c : Char) (s : List Char) : Bool :=
  s.all (fun x => x != c)

/-- No occurrence of any marker sentinel. -/
def markerFree (s : List Char) : Bool :=
  s.all (fun c => !(isMarker c))

/-- No underscore immediately followed by an ASCII letter (no `_T` pattern);
satisfied by every auto-LTR-wrapped marker-free string and incompatible with
containing the `__TEMP_OPEN__` placeholder. -/
def noUL : List Char → Bool
  | [] => true
  | [_] => true
  | a :: b :: r => !(a == '_' && isAsciiLetter b) && noUL (b :: r)

/-! ### Lemmas: the drawing surface -/

theorem setFont_measureW (doc : DocState) (n s : String) :
    (setFont doc n s).measureW = doc.measureW := rfl

theorem setFont_events (doc : DocState) (n s : String) :
    (setFont doc n s).events = doc.events := rfl

theorem setFont_font (doc : DocState) (n s : String) :
    (setFont doc n s).font = ⟨n, s⟩ := rfl

theorem paintText_measureW (doc : DocState) (s : List Char) (x y : ℚ) (r : Bool) :
    (paintText doc s x y r).measureW = doc.measureW := rfl

theorem paintText_events (doc : DocState) (s : List Char) (x y : ℚ) (r : Bool) :
    (paintText doc s x y r).events = doc.events ++ [.text s x y doc.font r] := rfl

theorem paintText_font (doc : DocState) (s : List Char) (x y : ℚ) (r : Bool) :
    (paintText doc s x y r).font = doc.font := rfl

theorem paintLine_measureW (doc : DocState) (x1 y1 x2 y2 : ℚ) :
    (paintLine doc x1 y1 x2 y2).measureW = doc.measureW := rfl

theorem paintLine_events (doc : DocState) (x1 y1 x2 y2 : ℚ) :
    (paintLine doc x1 y1 x2 y2).events = doc.events ++ [.line x1 y1 x2 y2] := rfl

theorem paintLine_font (doc : DocState) (x1 y1 x2 y2 : ℚ) :
    (paintLine doc x1 y1 x2 y2).font = doc.font := rfl

theorem textEventsOf_append (a b : List PaintEvent) :
    textEventsOf (a ++ b) = textEventsOf a ++ textEventsOf b := by
  simp [textEventsOf]

theorem textEventsOf_text (s : List Char) (x y : ℚ) (f : Font) (r : Bool) :
    textEventsOf [.text s x y f r] = [(f, s)] := rfl

theorem textEventsOf_line (x1 y1 x2 y2 : ℚ) :
    textEventsOf [.line x1 y1 x2 y2] = [] := rfl

theorem textXs_append (a b : List PaintEvent) :
    textXs (a ++ b) = textXs a ++ textXs b := by
  simp [textXs]

/-! ### Lemmas: measurement purity (C9, and the width oracle of C1/C2/C8) -/

theorem measureSegs_width (p : Printer) :
    ∀ (segs : List TextSegment) (doc : DocState),
      (measureSegs p doc segs).1 = queriesWidth doc.measureW (segQueries p segs) := by
  intro segs
  induction segs with
  | nil => intro doc; simp [measureSegs, segQueries, queriesWidth]
  | cons seg rest ih =>
    intro doc
    simp only [measureSegs, segQueries, queriesWidth, List.map_cons, List.sum_cons]
    rw [ih]
    rfl

theorem measureSegs_setFont (p : Printer) :
    ∀ (segs : List TextSegment) (doc : DocState) (n s : String),
      setFont (measureSegs p doc segs).2 n s = setFont doc n s := by
  intro segs
  induction segs with
  | nil => intro doc n s; rfl
  | cons seg rest ih =>
    intro doc n s
    simp only [measureSegs]
    rw [ih]
    rfl

/-- `getWordWidthWithState` as a pure function: it returns exactly the summed
per-segment query widths and the parse's outgoing vector, and hands the
drawing surface back in precisely its pre-call state. -/
theorem getWordWidthWithState_eq (p : Printer) (doc : DocState) (word : List Char)
    (st : StyleState) :
    getWordWidthWithState p doc word st =
      (wordWidthPure p doc.measureW word st, nextStateOf word st, doc) := by
  unfold getWordWidthWithState wordWidthPure nextStateOf
  simp only []
  rw [measureSegs_width, measureSegs_setFont]
  rfl

/-! ### Lemmas: segments produced by parsing are non-empty -/

theorem foldParts_text_ne : ∀ (parts : List (List Char)) (st : StyleState),
    ∀ seg ∈ (foldParts parts st).1, seg.text ≠ [] := by
  intro parts
  induction parts with
  | nil => intro st seg h; simp [foldParts] at h
  | cons part rest ih =>
    intro st seg h
    unfold foldParts at h
    split_ifs at h with h1 h2 h3 h4 h5 h6 h7 h8 h9
    any_goals exact ih _ seg h
    simp only [List.mem_cons] at h
    rcases h with h | h
    · rw [h]; simpa using h9
    · exact ih _ seg h

theorem parse_text_ne (word : List Char) (st : StyleState) :
    ∀ seg ∈ (parseSegmentsWithState word st).1, seg.text ≠ [] :=
  foldParts_text_ne (splitMarkers word) st

/-! ### Lemmas: the segment paint loop -/

theorem setLineDash_measureW (doc : DocState) (pat : List ℚ) (ph : ℚ) :
    (setLineDash doc pat ph).measureW = doc.measureW := rfl

theorem setDrawColor_measureW (doc : DocState) (r g b : ℕ) :
    (setDrawColor doc r g b).measureW = doc.measureW := rfl

theorem setLineWidth_measureW (doc : DocState) (v : ℚ) :
    (setLineWidth doc v).measureW = doc.measureW := rfl

theorem renderSegDecor_measureW (p : Printer) (fs y ov x w : ℚ)
    (prev next : Option TextSegment) (seg : TextSegment) (doc : DocState) :
    (renderSegDecor p fs y ov x w prev next seg doc).measureW = doc.measureW := by
  unfold renderSegDecor
  split_ifs <;> rfl

theorem renderSegDecor_font (p : Printer) (fs y ov x w : ℚ)
    (prev next : Option TextSegment) (seg : TextSegment) (doc : DocState) :
    (renderSegDecor p fs y ov x w prev next seg doc).font = doc.font := by
  unfold renderSegDecor
  split_ifs <;> rfl

theorem renderSegDecor_textEvents (p : Printer) (fs y ov x w : ℚ)
    (prev next : Option TextSegment) (seg : TextSegment) (doc : DocState) :
    textEventsOf (renderSegDecor p fs y ov x w prev next seg doc).events
      = textEventsOf doc.events := by
  unfold renderSegDecor
  split_ifs <;> simp [paintLine, setLineDash, setDrawColor, textEventsOf]

theorem renderSegDecor_textXs (p : Printer) (fs y ov x w : ℚ)
    (prev next : Option TextSegment) (seg : TextSegment) (doc : DocState) :
    textXs (renderSegDecor p fs y ov x w prev next seg doc).events
      = textXs doc.events := by
  unfold renderSegDecor
  split_ifs <;> simp [paintLine, setLineDash, setDrawColor, textXs]

theorem renderSegs_spec (p : Printer) (fs y : ℚ) :
    ∀ (segs : List TextSegment) (doc : DocState) (x : ℚ) (prev : Option TextSegment),
      (∀ seg ∈ segs, seg.text ≠ []) →
      (renderSegs p fs y doc x prev segs).1.measureW = doc.measureW ∧
      (renderSegs p fs y doc x prev segs).2
        = x - queriesWidth doc.measureW (segQueries p segs) ∧
      textEventsOf (renderSegs p fs y doc x prev segs).1.events
        = textEventsOf doc.events ++ segQueries p segs ∧
      textXs (renderSegs p fs y doc x prev segs).1.events
        = textXs doc.events ++ segXs doc.measureW x (segQueries p segs) := by
  intro segs
  induction segs with
  | nil =>
    intro doc x prev hne
    simp [renderSegs, segQueries, queriesWidth, segXs]
  | cons seg rest ih =>
    intro doc x prev hne
    have hseg : seg.text ≠ [] := hne seg (by simp)
    have hrest : ∀ s ∈ rest, s.text ≠ [] := fun s hs => hne s (by simp [hs])
    unfold renderSegs
    rw [if_neg hseg]
    simp only []
    set doc1 := setFont doc p.fontName (if seg.isBold then "bold" else "normal") with hdoc1
    set printableText :=
      if p.convertDigitsToPersian && !seg.isLtr then toPersianDigits seg.text else seg.text
      with hpt
    set segmentWidth := getTextWidth doc1 printableText with hsw
    set doc2 := paintText doc1 printableText x y
      (!seg.isLtr && seg.text.any (fun c => 0x600 ≤ c.val && c.val ≤ 0x6FF)) with hdoc2
    set doc3 := renderSegDecor p fs y (3 / 10) x segmentWidth prev rest.head? seg doc2 with hdoc3
    set doc4 := setFont doc3 doc.font.name doc.font.style with hdoc4
    have hm4 : doc4.measureW = doc.measureW := by
      rw [hdoc4, setFont_measureW, hdoc3, renderSegDecor_measureW, hdoc2, paintText_measureW,
        hdoc1, setFont_measureW]
    have hev4 : textEventsOf doc4.events
        = textEventsOf doc.events ++ [(styleFont p seg, localizedText p seg)] := by
      rw [hdoc4, setFont_events, hdoc3, renderSegDecor_textEvents, hdoc2, paintText_events,
        textEventsOf_append, hdoc1, setFont_events]
      rfl
    have hxs4 : textXs doc4.events = textXs doc.events ++ [x] := by
      rw [hdoc4, setFont_events, hdoc3, renderSegDecor_textXs, hdoc2, paintText_events,
        textXs_append, hdoc1, setFont_events]
      rfl
    have hw : segmentWidth = doc.measureW (styleFont p seg) (localizedText p seg) := rfl
    obtain ⟨ihm, ihx, ihe, ihxs⟩ := ih doc4 (x - segmentWidth) (some seg) hrest
    refine ⟨by rw [ihm, hm4], ?_, ?_, ?_⟩
    · rw [ihx, hm4, hw]
      simp [segQueries, queriesWidth]
      ring
    · rw [ihe, hev4]
      simp [segQueries]
    · rw [ihxs, hxs4, hm4, hw]
      simp [segQueries, segXs]

theorem setLineWidth_events (doc : DocState) (v : ℚ) :
    (setLineWidth doc v).events = doc.events := rfl

theorem setLineWidth_fontSize (doc : DocState) (v : ℚ) :
    (setLineWidth doc v).fontSize = doc.fontSize := rfl

/-- `renderWordWithState` purely: the outgoing vector is the parse's, the
cursor moves left by exactly the summed per-segment widths, and the painted
(font, string) pairs are exactly the measurement queries, painted at the
successive cursor positions. -/
theorem renderWordWithState_spec (p : Printer) (doc : DocState) (word : List Char)
    (x y : ℚ) (st : StyleState) :
    (renderWordWithState p doc word x y st).1.measureW = doc.measureW ∧
    (renderWordWithState p doc word x y st).2.1
      = x - wordWidthPure p doc.measureW word st ∧
    (renderWordWithState p doc word x y st).2.2 = nextStateOf word st ∧
    textEventsOf (renderWordWithState p doc word x y st).1.events
      = textEventsOf doc.events ++ segQueries p (parseSegmentsWithState word st).1 ∧
    textXs (renderWordWithState p doc word x y st).1.events
      = textXs doc.events ++ segXs doc.measureW x (segQueries p (parseSegmentsWithState word st).1) := by
  obtain ⟨hm, hx, he, hxs⟩ := renderSegs_spec p doc.fontSize y
    (parseSegmentsWithState word st).1 (setLineWidth doc (3 / 20)) x none
    (parse_text_ne word st)
  unfold renderWordWithState
  simp only []
  rw [setFont_measureW, setFont_events]
  exact ⟨by rw [hm]; rfl, by rw [hx]; rfl, rfl, by rw [he]; rfl, by rw [hxs]; rfl⟩

/-! ### Lemmas: the line renderers -/

theorem sumWordWidths_eq (p : Printer) :
    ∀ (ws : List (List Char)) (doc : DocState) (st : StyleState),
      sumWordWidths p doc st ws = (wordsWidthPure p doc.measureW st ws, stateAfter ws st, doc) := by
  intro ws
  induction ws with
  | nil => intro doc st; simp [sumWordWidths, wordsWidthPure, stateAfter]
  | cons w rest ih =>
    intro doc st
    unfold sumWordWidths
    rw [getWordWidthWithState_eq]
    simp only []
    rw [ih]
    simp [wordsWidthPure, stateAfter, nextStateOf]

theorem renderGapDecor_measureW (p : Printer) (fs y gap : ℚ) (col : Bool) (x : ℚ)
    (st : StyleState) (doc : DocState) :
    (renderGapDecor p fs y gap col x st doc).measureW = doc.measureW := by
  unfold renderGapDecor
  split_ifs <;> rfl

theorem renderGapDecor_textXs (p : Printer) (fs y gap : ℚ) (col : Bool) (x : ℚ)
    (st : StyleState) (doc : DocState) :
    textXs (renderGapDecor p fs y gap col x st doc).events = textXs doc.events := by
  unfold renderGapDecor
  split_ifs <;> simp [paintLine, setDrawColor, textXs]

theorem renderGapDecor_textEvents (p : Printer) (fs y gap : ℚ) (col : Bool) (x : ℚ)
    (st : StyleState) (doc : DocState) :
    textEventsOf (renderGapDecor p fs y gap col x st doc).events
      = textEventsOf doc.events := by
  unfold renderGapDecor
  split_ifs <;> simp [paintLine, setDrawColor, textEventsOf]

theorem renderWalk_spec (p : Printer) (gap fs y : ℚ) (col : Bool) :
    ∀ (words : List (List Char)) (doc : DocState) (x : ℚ) (st : StyleState),
      (renderWalk p gap fs y col doc x st words).1.measureW = doc.measureW ∧
      (renderWalk p gap fs y col doc x st words).2.2 = stateAfter words st ∧
      (words ≠ [] →
        (renderWalk p gap fs y col doc x st words).2.1
          = x - wordsWidthPure p doc.measureW st words - ((words.length : ℚ) - 1) * gap) ∧
      (∃ e, textXs (renderWalk p gap fs y col doc x st words).1.events
        = textXs doc.events ++ e) ∧
      (∀ w ws, words = w :: ws → (parseSegmentsWithState w st).1 ≠ [] →
        ∃ t, textXs (renderWalk p gap fs y col doc x st words).1.events
          = textXs doc.events ++ x :: t) := by
  intro words
  induction words with
  | nil =>
    intro doc x st
    refine ⟨rfl, rfl, by simp, ⟨[], by simp [renderWalk]⟩, ?_⟩
    intro w ws h
    simp at h
  | cons w ws ih =>
    intro doc x st
    obtain ⟨rm, rx, rs, rte, rtx⟩ := renderWordWithState_spec p doc w x y st
    have hsegx : (parseSegmentsWithState w st).1 ≠ [] →
        ∃ t0, textXs (renderWordWithState p doc w x y st).1.events
          = textXs doc.events ++ x :: t0 := by
      intro hne
      rw [rtx]
      cases hp : (parseSegmentsWithState w st).1 with
      | nil => exact absurd hp hne
      | cons s0 srest =>
        refine ⟨segXs doc.measureW (x - doc.measureW (styleFont p s0) (localizedText p s0))
          (segQueries p srest), ?_⟩
        simp [segQueries, segXs]
    cases ws with
    | nil =>
      have hwalk : renderWalk p gap fs y col doc x st [w]
          = ((renderWordWithState p doc w x y st).1,
             (renderWordWithState p doc w x y st).2.1,
             (renderWordWithState p doc w x y st).2.2) := by
        unfold renderWalk
        simp only []
      rw [hwalk]
      refine ⟨rm, by rw [rs]; simp [stateAfter, nextStateOf], ?_, ?_, ?_⟩
      · intro _
        rw [rx]
        simp only [wordsWidthPure, List.length_cons, List.length_nil]
        push_cast
        ring
      · exact ⟨_, rtx⟩
      · intro w' ws' hww hne
        injection hww with h1 h2
        subst h1
        exact hsegx hne
    | cons w2 ws2 =>
      have hwalk : renderWalk p gap fs y col doc x st (w :: w2 :: ws2)
          = renderWalk p gap fs y col
              (renderGapDecor p fs y gap col
                (renderWordWithState p doc w x y st).2.1
                (renderWordWithState p doc w x y st).2.2
                (renderWordWithState p doc w x y st).1)
              ((renderWordWithState p doc w x y st).2.1 - gap)
              (renderWordWithState p doc w x y st).2.2 (w2 :: ws2) := by
        cases ws2 <;> rfl
      set d2 := renderGapDecor p fs y gap col
          (renderWordWithState p doc w x y st).2.1
          (renderWordWithState p doc w x y st).2.2
          (renderWordWithState p doc w x y st).1 with hd2
      have hd2m : d2.measureW = doc.measureW := by
        rw [hd2, renderGapDecor_measureW, rm]
      have hd2x : textXs d2.events = textXs (renderWordWithState p doc w x y st).1.events := by
        rw [hd2, renderGapDecor_textXs]
      obtain ⟨im, is, ix, ie, itop⟩ := ih d2 ((renderWordWithState p doc w x y st).2.1 - gap)
        (renderWordWithState p doc w x y st).2.2
      rw [hwalk]
      refine ⟨by rw [im, hd2m], ?_, ?_, ?_, ?_⟩
      · rw [is, rs]
        simp [stateAfter, nextStateOf]
      · intro _
        rw [ix (by simp), hd2m, rx, rs]
        simp only [wordsWidthPure, List.length_cons, nextStateOf]
        push_cast
        ring
      · obtain ⟨e, he'⟩ := ie
        rw [he', hd2x, rtx]
        exact ⟨segXs doc.measureW x (segQueries p (parseSegmentsWithState w st).1) ++ e,
          by simp⟩
      · intro w' ws' hww hne
        injection hww with h1 h2
        subst h1
        subst h2
        obtain ⟨t0, ht0⟩ := hsegx hne
        obtain ⟨e, he'⟩ := ie
        rw [he', hd2x, ht0]
        exact ⟨t0 ++ e, by simp⟩

theorem get?_append_cons (a : List ℚ) (x : ℚ) (t : List ℚ) :
    (a ++ x :: t).get? a.length = some x := by
  induction a with
  | nil => rfl
  | cons h a' ih => simpa using ih

/-- `renderJustifiedLine` on a line with at least one gap is exactly the gap
walk with gap width `spaceWidth + (maxWidth - totalWordsWidth -
spaceWidth*(N-1)) / (N-1)` — the unclamped even distribution of the
shortfall. -/
theorem renderJustifiedLine_eq_walk (p : Printer) (doc : DocState)
    (words : List (List Char)) (startX y : ℚ) (initState : StyleState)
    (h2 : 2 ≤ words.length) :
    renderJustifiedLine p doc words startX y initState =
      ((renderWalk p
          (getTextWidth doc [' '] +
            (p.maxWidth - wordsWidthPure p doc.measureW initState words -
              getTextWidth doc [' '] * ((words.length : ℚ) - 1)) / ((words.length : ℚ) - 1))
          doc.fontSize y false doc startX initState words).1,
        (renderWalk p
          (getTextWidth doc [' '] +
            (p.maxWidth - wordsWidthPure p doc.measureW initState words -
              getTextWidth doc [' '] * ((words.length : ℚ) - 1)) / ((words.length : ℚ) - 1))
          doc.fontSize y false doc startX initState words).2.1) := by
  unfold renderJustifiedLine
  rw [sumWordWidths_eq]
  simp only []
  have hsc : ¬ ((words.length : ℤ) - 1 ≤ 0) := by omega
  rw [if_neg hsc]
  have hcast : (((words.length : ℤ) - 1 : ℤ) : ℚ) = (words.length : ℚ) - 1 := by push_cast; ring
  rw [hcast]

/-! ### Lemmas: `checkPageBreak` -/

theorem addPage_events (doc : DocState) : (addPage doc).events = doc.events ++ [.addPage] := rfl

/-! ### Lemmas: the `renderWords` loop invariant -/

theorem stateAfter_append (a b : List (List Char)) (st : StyleState) :
    stateAfter (a ++ b) st = stateAfter b (stateAfter a st) := by
  simp [stateAfter, List.foldl_append]

theorem stateAfter_concat (a : List (List Char)) (w : List Char) (st : StyleState) :
    stateAfter (a ++ [w]) st = nextStateOf w (stateAfter a st) := by
  simp [stateAfter, List.foldl_append]

theorem wordsWidthPure_concat (p : Printer) (W : Font → List Char → ℚ) :
    ∀ (ws : List (List Char)) (w : List Char) (st : StyleState),
      wordsWidthPure p W st (ws ++ [w])
        = wordsWidthPure p W st ws + wordWidthPure p W w (stateAfter ws st) := by
  intro ws
  induction ws with
  | nil => intro w st; simp [wordsWidthPure, stateAfter]
  | cons v rest ih =>
    intro w st
    simp only [List.cons_append, wordsWidthPure, List.append_eq]
    rw [ih]
    simp [stateAfter]
    ring

theorem renderRegularLine_measureW (p : Printer) (doc : DocState) (words : List (List Char))
    (sx y : ℚ) (st : StyleState) :
    (renderRegularLine p doc words sx y st).1.measureW = doc.measureW := by
  unfold renderRegularLine
  rw [sumWordWidths_eq]
  simp only []
  split_ifs <;> exact (renderWalk_spec p _ _ _ _ words doc _ st).1

theorem renderJustifiedLine_measureW (p : Printer) (doc : DocState) (words : List (List Char))
    (sx y : ℚ) (st : StyleState) :
    (renderJustifiedLine p doc words sx y st).1.measureW = doc.measureW := by
  unfold renderJustifiedLine
  rw [sumWordWidths_eq]
  simp only []
  split_ifs
  · exact renderRegularLine_measureW p doc words sx y st
  · exact (renderWalk_spec p _ _ _ _ words doc sx st).1

theorem renderLine_measureW (p : Printer) (doc : DocState) (words : List (List Char))
    (sx y : ℚ) (sj : Bool) (st : StyleState) :
    (renderLine p doc words sx y sj st).measureW = doc.measureW := by
  unfold renderLine
  split_ifs
  · exact renderJustifiedLine_measureW p doc words sx y st
  · exact renderRegularLine_measureW p doc words sx y st

theorem checkPageBreak_measureW (p : Printer) (doc : DocState) (pc : Nat) (y : ℚ) :
    (checkPageBreak p doc pc y).2.2.measureW = doc.measureW := by
  unfold checkPageBreak
  simp only []
  split_ifs
  · cases p.onPageBreak <;> rfl
  · rfl

/-- The loop invariant of `renderWords`: the accumulator's running width and
style states agree with the pure characterizations, packed lines of two or
more words fit the effective maximum, and every trace record's flags and
starting state are as the source assigns them. -/
def AccInv (p : Printer) (W : Font → List Char → ℚ) (sw : ℚ) (j : Bool) (acc : WrapAcc) : Prop :=
  acc.doc.measureW = W ∧
  acc.lineWidth = lineContentWidth p W sw acc.lineStart acc.lineWords ∧
  acc.state = stateAfter acc.lineWords acc.lineStart ∧
  acc.lineStart = stateAfter (traceWords acc.trace) StyleState.init ∧
  (2 ≤ acc.lineWords.length → acc.lineWidth ≤ p.maxWidth) ∧
  (∀ rec ∈ acc.trace,
    (2 ≤ rec.words.length → lineContentWidth p W sw rec.startState rec.words ≤ p.maxWidth) ∧
    (rec.fromBreak = true → rec.justifyArg = (j && decide (1 < rec.words.length))) ∧
    (rec.fromBreak = false → rec.justifyArg = false)) ∧
  (∀ (k : ℕ) (rec : LineRec), acc.trace.get? k = some rec →
    rec.startState = stateAfter (traceWords (acc.trace.take k)) StyleState.init)

theorem traceWords_append (a b : List LineRec) :
    traceWords (a ++ b) = traceWords a ++ traceWords b := by
  simp [traceWords]

theorem lineContentWidth_concat (p : Printer) (W : Font → List Char → ℚ) (sw : ℚ)
    (st : StyleState) (ws : List (List Char)) (w : List Char) :
    lineContentWidth p W sw st (ws ++ [w])
      = lineContentWidth p W sw st ws
        + wordWidthPure p W w (stateAfter ws st)
        + (if 0 < ws.length then sw else 0) := by
  cases ws with
  | nil => simp [lineContentWidth, wordsWidthPure, stateAfter]
  | cons v rest =>
    simp only [lineContentWidth, List.cons_append]
    rw [← List.cons_append, wordsWidthPure_concat]
    simp only [List.length_append, List.length_cons, List.length_nil]
    rw [if_pos (by simp)]
    push_cast
    ring


theorem AccInv_break (p : Printer) (W : Font → List Char → ℚ) (sw : ℚ) (j : Bool)
    (acc : WrapAcc) (word : List Char) (h : AccInv p W sw j acc)
    (hb : 2 ≤ acc.lineWords.length → acc.lineWidth ≤ p.maxWidth)
    (y' : ℚ) (pc' : ℕ) (doc' : DocState) (hdoc' : doc'.measureW = W) :
    AccInv p W sw j
      { y := y', pc := pc', doc := doc',
        lineWords := [word], lineWidth := wordWidthPure p W word acc.state,
        state := nextStateOf word acc.state, lineStart := acc.state,
        trace := acc.trace ++
          [⟨acc.lineWords, acc.lineStart, j && decide (1 < acc.lineWords.length), true⟩] } := by
  obtain ⟨h1, h2, h3, h4, h5, h6, h7⟩ := h
  refine ⟨hdoc', ?_, ?_, ?_, ?_, ?_, ?_⟩
  · simp [lineContentWidth, wordsWidthPure]
  · simp [stateAfter, nextStateOf]
  · simp only [traceWords_append]
    rw [stateAfter_append, ← h4]
    simpa [traceWords, stateAfter] using h3
  · intro hlen
    simp at hlen
  · intro rec hrec
    simp only [List.mem_append, List.mem_singleton] at hrec
    rcases hrec with hrec | hrec
    · exact h6 rec hrec
    · subst hrec
      refine ⟨?_, fun _ => rfl, by simp⟩
      intro hlen
      rw [← h2]
      exact hb hlen
  · intro k rec hk
    simp only at hk
    rcases lt_trichotomy k acc.trace.length with hlt | heq | hgt
    · rw [List.get?_append hlt] at hk
      rw [List.take_append_of_le_length (le_of_lt hlt)]
      exact h7 k rec hk
    · rw [List.get?_append_right (le_of_eq heq.symm)] at hk
      rw [heq] at hk
      simp at hk
      subst hk
      rw [heq, List.take_append_of_le_length (le_refl _)]
      simp only [List.take_length]
      exact h4
    · rw [List.get?_append_right (by omega)] at hk
      cases hkd : k - acc.trace.length with
      | zero => omega
      | succ n => rw [hkd] at hk; simp at hk

theorem AccInv_append (p : Printer) (W : Font → List Char → ℚ) (sw : ℚ) (j : Bool)
    (acc : WrapAcc) (word : List Char) (h : AccInv p W sw j acc)
    (stu : ℚ) (hstu : stu = if 0 < acc.lineWords.length then sw else 0)
    (hfit : acc.lineWidth + wordWidthPure p W word acc.state + stu ≤ p.maxWidth) :
    AccInv p W sw j
      { acc with
        lineWords := acc.lineWords ++ [word],
        lineWidth := acc.lineWidth + wordWidthPure p W word acc.state + stu,
        state := nextStateOf word acc.state, doc := acc.doc } := by
  obtain ⟨h1, h2, h3, h4, h5, h6, h7⟩ := h
  refine ⟨h1, ?_, ?_, h4, ?_, h6, h7⟩
  · simp only []
    rw [lineContentWidth_concat, ← h2, ← h3, hstu]
  · simp only []
    rw [stateAfter_concat, ← h3]
  · intro _
    exact hfit

theorem renderWordsStep_inv (p : Printer) (W : Font → List Char → ℚ) (j : Bool)
    (startX sw : ℚ) (acc : WrapAcc) (word : List Char)
    (h : AccInv p W sw j acc) :
    AccInv p W sw j (renderWordsStep p j startX sw acc word) := by
  unfold renderWordsStep
  rw [getWordWidthWithState_eq]
  simp only []
  rw [h.1]
  have hm : (renderLine p (checkPageBreak p acc.doc acc.pc acc.y).2.2 acc.lineWords startX
      (checkPageBreak p acc.doc acc.pc acc.y).1
      (j && decide (1 < acc.lineWords.length)) acc.lineStart).measureW = W := by
    rw [renderLine_measureW, checkPageBreak_measureW, h.1]
  split_ifs with hsp hbr hbr
  · exact AccInv_break p W sw j acc word h h.2.2.2.2.1 _ _ _ hm
  · exact AccInv_append p W sw j acc word h sw (if_pos hsp).symm (by linarith)
  · exact AccInv_break p W sw j acc word h h.2.2.2.2.1 _ _ _ hm
  · exact AccInv_append p W sw j acc word h 0 (if_neg hsp).symm (by linarith)
theorem foldl_renderWordsStep_inv (p : Printer) (W : Font → List Char → ℚ) (j : Bool)
    (startX sw : ℚ) :
    ∀ (words : List (List Char)) (acc : WrapAcc), AccInv p W sw j acc →
      AccInv p W sw j (words.foldl (renderWordsStep p j startX sw) acc) := by
  intro words
  induction words with
  | nil => intro acc h; exact h
  | cons w ws ih =>
    intro acc h
    exact ih _ (renderWordsStep_inv p W j startX sw acc w h)

/-- The facts the claims need about the full trace after the final flush:
line-width bounds, justify-argument flags, and starting-state provenance. -/
theorem renderWordsFinish_trace_facts (p : Printer) (W : Font → List Char → ℚ)
    (sw : ℚ) (j : Bool) (startX : ℚ) (acc : WrapAcc) (h : AccInv p W sw j acc) :
    (∀ rec ∈ (renderWordsFinish p startX acc).trace,
      (2 ≤ rec.words.length → lineContentWidth p W sw rec.startState rec.words ≤ p.maxWidth) ∧
      (rec.fromBreak = true → rec.justifyArg = (j && decide (1 < rec.words.length))) ∧
      (rec.fromBreak = false → rec.justifyArg = false)) ∧
    (∀ (k : ℕ) (rec : LineRec), (renderWordsFinish p startX acc).trace.get? k = some rec →
      rec.startState
        = stateAfter (traceWords ((renderWordsFinish p startX acc).trace.take k)) StyleState.init) := by
  obtain ⟨h1, h2, h3, h4, h5, h6, h7⟩ := h
  unfold renderWordsFinish
  split_ifs with hsp
  · simp only []
    constructor
    · intro rec hrec
      simp only [List.mem_append, List.mem_singleton] at hrec
      rcases hrec with hrec | hrec
      · exact h6 rec hrec
      · subst hrec
        refine ⟨?_, by simp, fun _ => rfl⟩
        intro hlen
        rw [← h2]
        exact h5 hlen
    · intro k rec hk
      rcases lt_trichotomy k acc.trace.length with hlt | heq | hgt
      · rw [List.get?_append hlt] at hk
        rw [List.take_append_of_le_length (le_of_lt hlt)]
        exact h7 k rec hk
      · rw [List.get?_append_right (le_of_eq heq.symm)] at hk
        rw [heq] at hk
        simp at hk
        subst hk
        rw [heq, List.take_append_of_le_length (le_refl _)]
        simp only [List.take_length]
        exact h4
      · rw [List.get?_append_right (by omega)] at hk
        cases hkd : k - acc.trace.length with
        | zero => omega
        | succ n => rw [hkd] at hk; simp at hk
  · exact ⟨h6, h7⟩

theorem AccInv_start (p : Printer) (j : Bool) (sw : ℚ) (doc : DocState)
    (y0 : ℚ) (pc0 : ℕ) :
    AccInv p doc.measureW sw j
      { y := y0, pc := pc0, doc := doc, lineWords := [], lineWidth := 0,
        state := StyleState.init, lineStart := StyleState.init, trace := [] } := by
  refine ⟨rfl, by simp [lineContentWidth], by simp [stateAfter],
    by simp [traceWords, stateAfter], ?_, by simp, ?_⟩
  · intro hlen
    simp at hlen
  · intro k rec hk
    simp at hk

/-- Master trace facts for `renderWords`. -/
theorem renderWords_trace_facts (p : Printer) (doc : DocState) (pc : ℕ)
    (words : List (List Char)) (startX startY : ℚ) (j : Bool) :
    (∀ rec ∈ (renderWords p doc pc words startX startY j).trace,
      (2 ≤ rec.words.length →
        lineContentWidth p doc.measureW (getTextWidth doc [' ']) rec.startState rec.words
          ≤ p.maxWidth) ∧
      (rec.fromBreak = true → rec.justifyArg = (j && decide (1 < rec.words.length))) ∧
      (rec.fromBreak = false → rec.justifyArg = false)) ∧
    (∀ (k : ℕ) (rec : LineRec),
      (renderWords p doc pc words startX startY j).trace.get? k = some rec →
      rec.startState
        = stateAfter (traceWords ((renderWords p doc pc words startX startY j).trace.take k))
            StyleState.init) := by
  unfold renderWords
  simp only []
  exact renderWordsFinish_trace_facts p doc.measureW (getTextWidth doc [' ']) j startX _
    (foldl_renderWordsStep_inv p doc.measureW j startX (getTextWidth doc [' ']) words _
      (AccInv_start p j (getTextWidth doc [' ']) doc startY pc))

/-! ### Lemmas: segmentation equivalence (C7) -/

theorem splitMarkers_eq (v : List Char) :
    splitMarkers v = v.takeWhile (fun x => !(isMarker x)) ::
      (match v.dropWhile (fun x => !(isMarker x)) with
       | [] => []
       | m :: w => [m] :: splitMarkers w) := by
  induction v with
  | nil => rfl
  | cons c rest ih =>
    by_cases hc : isMarker c
    · simp [splitMarkers, hc, List.takeWhile, List.dropWhile]
    · simp only [splitMarkers, hc, if_neg, Bool.not_eq_true]
      rw [ih]
      simp [List.takeWhile, List.dropWhile, hc]

theorem foldParts_marker (m : Char) (hm : isMarker m = true)
    (parts : List (List Char)) (st : StyleState) :
    foldParts ([m] :: parts) st = foldParts parts (applyMarker m st) := by
  simp only [isMarker, Bool.or_eq_true, beq_iff_eq] at hm
  rcases hm with ((((((h | h) | h) | h) | h) | h) | h) | h <;> subst h <;> rfl

theorem foldParts_text (part : List Char) (hp : part ≠ [])
    (hmk : ∀ x ∈ part, isMarker x = false) (parts : List (List Char)) (st : StyleState) :
    foldParts (part :: parts) st =
      (⟨part, st.isBold, st.isUnderline, st.isStrike, st.isLtr⟩ :: (foldParts parts st).1,
       (foldParts parts st).2) := by
  have hmem : ∀ m : Char, isMarker m = true → part ≠ [m] := by
    intro m hm hpe
    rw [hpe] at hmk
    exact absurd (hmk m (by simp)) (by simp [hm])
  conv_lhs => unfold foldParts
  rw [if_neg (hmem boldStart (by decide)), if_neg (hmem boldEnd (by decide)),
    if_neg (hmem underlineStart (by decide)), if_neg (hmem underlineEnd (by decide)),
    if_neg (hmem strikeStart (by decide)), if_neg (hmem strikeEnd (by decide)),
    if_neg (hmem ltrStart (by decide)), if_neg (hmem ltrEnd (by decide)), if_neg hp]

theorem mem_takeWhile_mem {p : Char → Bool} : ∀ {l : List Char} {x : Char},
    x ∈ l.takeWhile p → x ∈ l := by
  intro l
  induction l with
  | nil => intro x h; simp [List.takeWhile] at h
  | cons c rest ih =>
    intro x h
    rw [List.takeWhile] at h
    by_cases hc : p c
    · rw [hc] at h
      simp only [List.mem_cons] at h
      rcases h with h | h
      · simp [h]
      · simp [ih h]
    · simp only [Bool.not_eq_true] at hc
      rw [hc] at h
      simp at h

theorem mem_takeWhile_sat {p : Char → Bool} : ∀ {l : List Char} {x : Char},
    x ∈ l.takeWhile p → p x = true := by
  intro l
  induction l with
  | nil => intro x h; simp [List.takeWhile] at h
  | cons c rest ih =>
    intro x h
    rw [List.takeWhile] at h
    by_cases hc : p c
    · rw [hc] at h
      simp only [List.mem_cons] at h
      rcases h with h | h
      · rw [h]; exact hc
      · exact ih h
    · simp only [Bool.not_eq_true] at hc
      rw [hc] at h
      simp at h

theorem mem_dropWhile_mem {p : Char → Bool} : ∀ {l : List Char} {x : Char},
    x ∈ l.dropWhile p → x ∈ l := by
  intro l
  induction l with
  | nil => intro x h; simp [List.dropWhile] at h
  | cons c rest ih =>
    intro x h
    rw [List.dropWhile] at h
    by_cases hc : p c
    · rw [hc] at h
      simp [ih h]
    · simp only [Bool.not_eq_true] at hc
      rw [hc] at h
      exact h

theorem parse_eq_segDirect_aux : ∀ (n : ℕ) (w : List Char) (st : StyleState),
    w.length ≤ n → parseSegmentsWithState w st = segDirect w st := by
  intro n
  induction n with
  | zero =>
    intro w st h
    have hw : w = [] := by
      cases w with
      | nil => rfl
      | cons c r => simp at h
    subst hw
    rw [segDirect]
    rfl
  | succ n ih =>
    intro w st h
    cases w with
    | nil => rw [segDirect]; rfl
    | cons c rest =>
      by_cases hc : isMarker c
      · have e1 : parseSegmentsWithState (c :: rest) st
            = parseSegmentsWithState rest (applyMarker c st) := by
          unfold parseSegmentsWithState
          simp only [splitMarkers, hc, if_pos]
          rw [show foldParts ([] :: [c] :: splitMarkers rest) st
              = foldParts ([c] :: splitMarkers rest) st from rfl]
          exact foldParts_marker c hc (splitMarkers rest) st
        rw [e1, ih rest (applyMarker c st) (by simp at h; omega)]
        rw [segDirect]
        simp [hc]
      · have hrun : (c :: rest).takeWhile (fun x => !(isMarker x)) ≠ [] := by
          simp [List.takeWhile, hc]
        have hrunmk : ∀ x ∈ (c :: rest).takeWhile (fun x => !(isMarker x)),
            isMarker x = false := by
          intro x hx
          have := mem_takeWhile_sat hx
          simpa using this
        have e1 : parseSegmentsWithState (c :: rest) st
            = (⟨(c :: rest).takeWhile (fun x => !(isMarker x)),
                st.isBold, st.isUnderline, st.isStrike, st.isLtr⟩ ::
                (parseSegmentsWithState ((c :: rest).dropWhile (fun x => !(isMarker x))) st).1,
               (parseSegmentsWithState ((c :: rest).dropWhile (fun x => !(isMarker x))) st).2) := by
          unfold parseSegmentsWithState
          rw [splitMarkers_eq (c :: rest)]
          rw [foldParts_text _ hrun hrunmk]
          have hdrop : foldParts
              (match (c :: rest).dropWhile (fun x => !(isMarker x)) with
               | [] => []
               | m :: w => [m] :: splitMarkers w) st
              = foldParts (splitMarkers ((c :: rest).dropWhile (fun x => !(isMarker x)))) st := by
            cases hd : (c :: rest).dropWhile (fun x => !(isMarker x)) with
            | nil => rfl
            | cons m w =>
              have hm : isMarker m = true := by
                have h1 := List.head?_dropWhile_not (fun x => !(isMarker x)) (c :: rest)
                rw [hd] at h1
                simpa using h1
              rw [splitMarkers_eq (m :: w)]
              simp only [List.takeWhile, hm, Bool.not_true, List.dropWhile]
              rw [show foldParts ([] :: [m] :: splitMarkers w) st
                  = foldParts ([m] :: splitMarkers w) st from rfl]
          rw [hdrop]
        rw [e1]
        have hlen : ((c :: rest).dropWhile (fun x => !(isMarker x))).length ≤ n := by
          simp only [List.dropWhile, hc, Bool.not_false]
          have := length_dropWhile_le (fun x => !(isMarker x)) rest
          simp at h
          omega
        rw [ih _ st hlen]
        rw [segDirect]
        simp [hc]

/-! ### Lemmas: preprocessing on plain literal text (C3, C10) -/

theorem noChar_cons_iff (c d : Char) (s : List Char) :
    noChar c (d :: s) = true ↔ d ≠ c ∧ noChar c s = true := by
  simp [noChar]

theorem brPass_id : ∀ (s : List Char), noChar '<' s = true → brPass s = s := by
  intro s
  induction s with
  | nil => intro _; rw [brPass]
  | cons c rest ih =>
    intro h
    rw [noChar_cons_iff] at h
    rw [brPass, if_neg h.1, ih h.2]

theorem replaceStyleOnce_id (names : List (List Char)) (a b : Char) :
    ∀ (s : List Char), noChar '<' s = true → replaceStyleOnce names a b s = s := by
  intro s
  induction s with
  | nil => intro _; rw [replaceStyleOnce]
  | cons c rest ih =>
    intro h
    rw [noChar_cons_iff] at h
    rw [replaceStyleOnce, if_neg h.1, ih h.2]

theorem styleFixN_id (names : List (List Char)) (a b : Char) (fuel : ℕ)
    (s : List Char) (h : noChar '<' s = true) : styleFixN names a b fuel s = s := by
  cases fuel with
  | zero => rfl
  | succ n =>
    unfold styleFixN
    rw [replaceStyleOnce_id names a b s h]
    simp

theorem removeTags_id : ∀ (s : List Char), noChar '<' s = true → removeTags s = s := by
  intro s
  induction s with
  | nil => intro _; rw [removeTags]
  | cons c rest ih =>
    intro h
    rw [noChar_cons_iff] at h
    rw [removeTags, if_neg h.1, ih h.2]

theorem markerFree_cons_iff (d : Char) (s : List Char) :
    markerFree (d :: s) = true ↔ isMarker d = false ∧ markerFree s = true := by
  simp [markerFree]

/-- Auto-LTR wrapping only inserts the two LTR markers. -/
theorem ltrWrap_chars_aux : ∀ (n : ℕ) (t : List Char), t.length ≤ n →
    ∀ x ∈ ltrWrapPass t, x ∈ t ∨ x = ltrStart ∨ x = ltrEnd := by
  intro n
  induction n with
  | zero =>
    intro t ht x hx
    have : t = [] := by cases t <;> simp_all
    subst this
    rw [ltrWrapPass] at hx
    simp at hx
  | succ n ih =>
    intro t ht x hx
    cases t with
    | nil => rw [ltrWrapPass] at hx; simp at hx
    | cons c rest =>
      rw [ltrWrapPass] at hx
      by_cases hl : isAsciiLetter c
      · rw [dif_pos hl] at hx
        simp only [List.mem_append] at hx
        have hdroplen : ((c :: rest).dropWhile isLtrClassChar).length ≤ n := by
          simp only [List.dropWhile, letter_isLtrClassChar hl]
          have := length_dropWhile_le isLtrClassChar rest
          simp at ht
          omega
        rcases hx with hx | hx
        · split_ifs at hx with hany
          · exact Or.inl (mem_takeWhile_mem hx)
          · simp only [List.mem_cons, List.mem_append, List.mem_singleton] at hx
            rcases hx with hx | hx | hx
            · exact Or.inr (Or.inl hx)
            · exact Or.inl (mem_takeWhile_mem hx)
            · simp at hx
              exact Or.inr (Or.inr hx)
        · rcases ih _ hdroplen x hx with hx | hx
          · exact Or.inl (mem_dropWhile_mem hx)
          · exact Or.inr hx
      · rw [dif_neg hl] at hx
        simp only [List.mem_cons] at hx
        rcases hx with hx | hx
        · exact Or.inl (by simp [hx])
        · rcases ih rest (by simp at ht; omega) x hx with hx | hx
          · exact Or.inl (by simp [hx])
          · exact Or.inr hx

theorem noChar_ltrWrap (c : Char) (t : List Char) (h : noChar c t = true)
    (h8 : c ≠ ltrStart) (h9 : c ≠ ltrEnd) : noChar c (ltrWrapPass t) = true := by
  simp only [noChar, List.all_eq_true, bne_iff_ne]
  intro x hx
  rcases ltrWrap_chars_aux t.length t (le_refl _) x hx with hx' | hx' | hx'
  · simp only [noChar, List.all_eq_true, bne_iff_ne] at h
    exact h x hx'
  · subst hx'
    exact fun he => h8 he.symm
  · subst hx'
    exact fun he => h9 he.symm

theorem filter_eq_self_of_all {p : Char → Bool} : ∀ {l : List Char},
    (∀ x ∈ l, p x = true) → l.filter p = l := by
  intro l h
  induction l with
  | nil => rfl
  | cons c rest ih =>
    have hc := h c (by simp)
    have ht := ih fun x hx => h x (by simp [hx])
    simp [List.filter_cons, hc, ht]

/-- Stripping markers undoes auto-LTR wrapping on marker-free text. -/
theorem strip_ltrWrap_aux : ∀ (n : ℕ) (t : List Char), t.length ≤ n →
    markerFree t = true → stripMarkers (ltrWrapPass t) = t := by
  intro n
  induction n with
  | zero =>
    intro t ht _
    have : t = [] := by cases t <;> simp_all
    subst this
    rw [ltrWrapPass]
    rfl
  | succ n ih =>
    intro t ht hmf
    cases t with
    | nil => rw [ltrWrapPass]; rfl
    | cons c rest =>
      rw [markerFree_cons_iff] at hmf
      rw [ltrWrapPass]
      by_cases hl : isAsciiLetter c
      · rw [dif_pos hl]
        simp only []
        have hrunmf : ∀ x ∈ (c :: rest).takeWhile isLtrClassChar, isMarker x = false := by
          intro x hx
          have hx' := mem_takeWhile_mem hx
          simp only [List.mem_cons] at hx'
          rcases hx' with hx' | hx'
          · rw [hx']; exact hmf.1
          · have := hmf.2
            simp only [markerFree, List.all_eq_true, Bool.not_eq_true'] at this
            exact this x hx'
        have hany : ((c :: rest).takeWhile isLtrClassChar).any
            (fun x => x == ltrStart || x == ltrEnd) = false := by
          simp only [List.any_eq_false, Bool.or_eq_true, beq_iff_eq, not_or]
          intro x hx
          have := hrunmf x hx
          constructor
          · intro he; rw [he] at this; exact absurd this (by decide)
          · intro he; rw [he] at this; exact absurd this (by decide)
        rw [hany]
        simp only [Bool.false_eq_true, if_false]
        have hdroplen : ((c :: rest).dropWhile isLtrClassChar).length ≤ n := by
          simp only [List.dropWhile, letter_isLtrClassChar hl]
          have := length_dropWhile_le isLtrClassChar rest
          simp at ht
          omega
        have hdropmf : markerFree ((c :: rest).dropWhile isLtrClassChar) = true := by
          simp only [markerFree, List.all_eq_true, Bool.not_eq_true']
          intro x hx
          have hx' := mem_dropWhile_mem hx
          simp only [List.mem_cons] at hx'
          rcases hx' with hx' | hx'
          · rw [hx']; exact hmf.1
          · have := hmf.2
            simp only [markerFree, List.all_eq_true, Bool.not_eq_true'] at this
            exact this x hx'
        unfold stripMarkers
        rw [List.filter_append]
        simp only [List.filter_cons, show (!(isMarker ltrStart)) = false by decide,
          Bool.false_eq_true, if_false]
        rw [List.filter_append]
        simp only [List.filter_cons, List.filter_nil,
          show (!(isMarker ltrEnd)) = false by decide, Bool.false_eq_true, if_false]
        rw [filter_eq_self_of_all (fun x hx => by simp [hrunmf x hx])]
        have := ih _ hdroplen hdropmf
        unfold stripMarkers at this
        rw [List.append_nil, this]
        exact List.takeWhile_append_dropWhile isLtrClassChar (c :: rest)
      · rw [dif_neg hl]
        unfold stripMarkers
        simp only [List.filter_cons, hmf.1, Bool.not_false, if_true]
        have := ih rest (by simp at ht; omega) hmf.2
        unfold stripMarkers at this
        rw [this]

theorem strip_ltrWrap (t : List Char) (hmf : markerFree t = true) :
    stripMarkers (ltrWrapPass t) = t :=
  strip_ltrWrap_aux t.length t (le_refl _) hmf

/-- The head of auto-LTR-wrapped marker-free text is never a letter. -/
theorem ltrWrap_head_not_letter (t : List Char) (hmf : markerFree t = true) :
    ∀ d, (ltrWrapPass t).head? = some d → isAsciiLetter d = false := by
  intro d hd
  cases t with
  | nil => rw [ltrWrapPass] at hd; simp at hd
  | cons c rest =>
    rw [markerFree_cons_iff] at hmf
    rw [ltrWrapPass] at hd
    by_cases hl : isAsciiLetter c
    · rw [dif_pos hl] at hd
      simp only [] at hd
      have hany : ((c :: rest).takeWhile isLtrClassChar).any
          (fun x => x == ltrStart || x == ltrEnd) = false := by
        simp only [List.any_eq_false, Bool.or_eq_true, beq_iff_eq, not_or]
        intro x hx
        have hx' := mem_takeWhile_mem hx
        have hxm : isMarker x = false := by
          simp only [List.mem_cons] at hx'
          rcases hx' with hx' | hx'
          · rw [hx']; exact hmf.1
          · have := hmf.2
            simp only [markerFree, List.all_eq_true, Bool.not_eq_true'] at this
            exact this x hx'
        constructor
        · intro he; rw [he] at hxm; exact absurd hxm (by decide)
        · intro he; rw [he] at hxm; exact absurd hxm (by decide)
      rw [hany] at hd
      simp only [Bool.false_eq_true, if_false, List.cons_append, List.head?] at hd
      cases hd
      decide
    · rw [dif_neg hl] at hd
      simp only [List.head?] at hd
      cases hd
      simpa using hl

theorem noUL_tail : ∀ {a : Char} {s : List Char}, noUL (a :: s) = true → noUL s = true := by
  intro a s h
  cases s with
  | nil => rfl
  | cons b r =>
    rw [noUL] at h
    exact (Bool.and_eq_true _ _ |>.mp h).2

theorem noUL_of_no_underscore : ∀ (s : List Char), (∀ x ∈ s, x ≠ '_') → noUL s = true := by
  intro s
  induction s with
  | nil => intro _; rfl
  | cons a s ih =>
    intro h
    cases s with
    | nil => rfl
    | cons b r =>
      rw [noUL]
      refine Bool.and_eq_true _ _ |>.mpr ⟨?_, ih fun x hx => h x (by simp [hx])⟩
      have ha : a ≠ '_' := h a (by simp)
      simp [ha]

theorem noUL_append : ∀ (a b : List Char), noUL a = true → noUL b = true →
    (∀ x y, a.getLast? = some x → b.head? = some y →
      (!(x == '_' && isAsciiLetter y)) = true) →
    noUL (a ++ b) = true := by
  intro a
  induction a with
  | nil => intro b _ hb _; exact hb
  | cons p a' ih =>
    intro b ha hb hbd
    cases a' with
    | nil =>
      cases b with
      | nil => rfl
      | cons q b' =>
        rw [List.singleton_append, noUL]
        refine Bool.and_eq_true _ _ |>.mpr ⟨?_, hb⟩
        exact hbd p q rfl rfl
    | cons p2 a'' =>
      simp only [List.cons_append]
      rw [noUL]
      refine Bool.and_eq_true _ _ |>.mpr ⟨?_, ?_⟩
      · rw [noUL] at ha
        exact (Bool.and_eq_true _ _ |>.mp ha).1
      · have := ih b (noUL_tail ha) hb
          (fun x y hx hy => hbd x y (by rw [List.getLast?_cons_cons, hx]) hy)
        simpa using this

/-- A string in which no underscore is followed by a letter cannot contain the
`__TEMP_OPEN__` placeholder. -/
theorem noUL_no_tempOpen : ∀ (s : List Char), noUL s = true →
    containsSeq tempOpen s = false := by
  intro s
  induction s with
  | nil => intro _; rfl
  | cons c s ih =>
    intro h
    rw [containsSeq]
    refine Bool.or_eq_false_iff.mpr ⟨?_, ih (noUL_tail h)⟩
    cases s with
    | nil => simp [tempOpen, listStarts]
    | cons d s2 =>
      cases s2 with
      | nil => simp [tempOpen, listStarts]
      | cons e s3 =>
        by_contra hcon
        rw [Bool.not_eq_false] at hcon
        simp only [tempOpen, listStarts, Bool.and_eq_true, beq_iff_eq] at hcon
        obtain ⟨hc, hd, he, _⟩ := hcon
        subst hc
        subst hd
        subst he
        have h2 := noUL_tail h
        rw [noUL] at h2
        rw [show ('_' == '_' && isAsciiLetter 'T') = true from by decide] at h2
        simp at h2
/-- Auto-LTR wrapping of marker-free text never leaves an underscore directly
before a letter: letters only occur inside wrapped class runs, preceded by a
class character or the LTR-start marker. -/
theorem ltrWrap_noUL_aux : ∀ (n : ℕ) (t : List Char), t.length ≤ n →
    markerFree t = true → noUL (ltrWrapPass t) = true := by
  intro n
  induction n with
  | zero =>
    intro t ht _
    have : t = [] := by cases t <;> simp_all
    subst this
    rw [ltrWrapPass]
    rfl
  | succ n ih =>
    intro t ht hmf
    cases t with
    | nil => rw [ltrWrapPass]; rfl
    | cons c rest =>
      rw [markerFree_cons_iff] at hmf
      rw [ltrWrapPass]
      by_cases hl : isAsciiLetter c
      · rw [dif_pos hl]
        simp only []
        have hrunmf : ∀ x ∈ (c :: rest).takeWhile isLtrClassChar, isMarker x = false := by
          intro x hx
          have hx' := mem_takeWhile_mem hx
          simp only [List.mem_cons] at hx'
          rcases hx' with hx' | hx'
          · rw [hx']; exact hmf.1
          · have := hmf.2
            simp only [markerFree, List.all_eq_true, Bool.not_eq_true'] at this
            exact this x hx'
        have hany : ((c :: rest).takeWhile isLtrClassChar).any
            (fun x => x == ltrStart || x == ltrEnd) = false := by
          simp only [List.any_eq_false, Bool.or_eq_true, beq_iff_eq, not_or]
          intro x hx
          have := hrunmf x hx
          constructor
          · intro he; rw [he] at this; exact absurd this (by decide)
          · intro he; rw [he] at this; exact absurd this (by decide)
        rw [hany]
        simp only [Bool.false_eq_true, if_false]
        have hdroplen : ((c :: rest).dropWhile isLtrClassChar).length ≤ n := by
          simp only [List.dropWhile, letter_isLtrClassChar hl]
          have := length_dropWhile_le isLtrClassChar rest
          simp at ht
          omega
        have hdropmf : markerFree ((c :: rest).dropWhile isLtrClassChar) = true := by
          simp only [markerFree, List.all_eq_true, Bool.not_eq_true']
          intro x hx
          have hx' := mem_dropWhile_mem hx
          simp only [List.mem_cons] at hx'
          rcases hx' with hx' | hx'
          · rw [hx']; exact hmf.1
          · have := hmf.2
            simp only [markerFree, List.all_eq_true, Bool.not_eq_true'] at this
            exact this x hx'
        have hrunnou : ∀ x ∈ (c :: rest).takeWhile isLtrClassChar, x ≠ '_' := by
          intro x hx he
          have := mem_takeWhile_sat hx
          rw [he] at this
          exact absurd this (by decide)
        have hA : noUL (ltrStart :: ((c :: rest).takeWhile isLtrClassChar ++ [ltrEnd])) = true := by
          have h1 : noUL ((c :: rest).takeWhile isLtrClassChar ++ [ltrEnd]) = true := by
            refine noUL_append _ _ (noUL_of_no_underscore _ hrunnou) rfl ?_
            intro x y _ hy
            simp only [List.head?, Option.some.injEq] at hy
            subst hy
            simp [show isAsciiLetter ltrEnd = false from by decide]
          have := noUL_append [ltrStart] _ rfl h1 ?_
          · simpa using this
          · intro x y hx _
            simp only [List.getLast?_singleton, Option.some.injEq] at hx
            subst hx
            simp [show (ltrStart == '_') = false from by decide]
        refine noUL_append _ _ hA (ih _ hdroplen hdropmf) ?_
        intro x y hx _
        rw [show ltrStart :: ((c :: rest).takeWhile isLtrClassChar ++ [ltrEnd])
            = (ltrStart :: (c :: rest).takeWhile isLtrClassChar) ++ [ltrEnd] by simp] at hx
        rw [List.getLast?_concat] at hx
        cases hx
        simp [show (ltrEnd == '_') = false from by decide]
      · rw [dif_neg hl]
        have hrest : noUL (ltrWrapPass rest) = true :=
          ih rest (by simp at ht; omega) hmf.2
        have := noUL_append [c] (ltrWrapPass rest) rfl hrest ?_
        · simpa using this
        · intro x y hx hy
          simp only [List.getLast?_singleton, Option.some.injEq] at hx
          subst hx
          have := ltrWrap_head_not_letter rest hmf.2 y hy
          simp [this]

theorem ltrWrap_noUL (t : List Char) (hmf : markerFree t = true) :
    noUL (ltrWrapPass t) = true :=
  ltrWrap_noUL_aux t.length t (le_refl _) hmf

/-! ### Lemmas: `replaceAll` and the parenthesis pass -/

theorem replaceAll_nil (pat rep : List Char) : replaceAll pat rep [] = [] := by
  rw [replaceAll]

theorem replaceAll_id_of_not_contains (pat rep : List Char) :
    ∀ (s : List Char), containsSeq pat s = false → replaceAll pat rep s = s := by
  intro s
  induction s with
  | nil => intro _; rw [replaceAll]
  | cons c s' ih =>
    intro h
    rw [containsSeq] at h
    have h2 := Bool.or_eq_false_iff.mp h
    rw [replaceAll, if_neg (fun hcon => by rw [hcon.2] at h2; simp at h2), ih h2.2]

theorem noChar_containsSeq_single (c : Char) :
    ∀ (s : List Char), noChar c s = true → containsSeq [c] s = false := by
  intro s
  induction s with
  | nil => intro _; rfl
  | cons d s' ih =>
    intro h
    rw [noChar_cons_iff] at h
    rw [containsSeq]
    refine Bool.or_eq_false_iff.mpr ⟨?_, ih h.2⟩
    simp only [listStarts, Bool.and_eq_false_iff]
    left
    simp only [beq_eq_false_iff_ne, ne_eq]
    exact fun he => h.1 he.symm

theorem startsWith_self_append : ∀ (p x : List Char), listStarts p (p ++ x) = true := by
  intro p
  induction p with
  | nil => intro x; rfl
  | cons q qt ih =>
    intro x
    rw [List.cons_append, listStarts]
    simp [ih x]

theorem replaceAll_pat_prefix (q : Char) (qt rep y : List Char) :
    replaceAll (q :: qt) rep ((q :: qt) ++ y) = rep ++ replaceAll (q :: qt) rep y := by
  rw [List.cons_append, replaceAll,
    if_pos ⟨by simp, by rw [← List.cons_append]; exact startsWith_self_append (q :: qt) y⟩]
  simp only [List.length_cons, Nat.add_sub_cancel]
  rw [List.drop_left]

theorem replaceAll_single_cons_eq (c : Char) (rep s : List Char) :
    replaceAll [c] rep (c :: s) = rep ++ replaceAll [c] rep s := by
  have := replaceAll_pat_prefix c [] rep s
  simpa using this

theorem replaceAll_cons_head_ne (q : Char) (qt rep : List Char) (d : Char) (s : List Char)
    (h : q ≠ d) : replaceAll (q :: qt) rep (d :: s) = d :: replaceAll (q :: qt) rep s := by
  rw [replaceAll, if_neg]
  intro hcon
  rw [listStarts] at hcon
  have := hcon.2
  simp only [Bool.and_eq_true, beq_iff_eq] at this
  exact h this.1

theorem replaceAll_single_append_notmem (c : Char) (rep : List Char) :
    ∀ (a x : List Char), (∀ d ∈ a, d ≠ c) →
      replaceAll [c] rep (a ++ x) = a ++ replaceAll [c] rep x := by
  intro a
  induction a with
  | nil => intro x _; rfl
  | cons d a' ih =>
    intro x h
    rw [List.cons_append, replaceAll_cons_head_ne c [] rep d _ (fun he => h d (by simp) he.symm)]
    rw [ih x fun e he => h e (by simp [he])]
    rfl

/-- The three-stage parenthesis pass mirrors every parenthesis on
underscore-free text. -/
theorem parenMirror : ∀ (s : List Char), noChar '_' s = true →
    parenPass s = s.map swapParen := by
  intro s
  induction s with
  | nil =>
    intro _
    unfold parenPass
    rw [replaceAll_nil, replaceAll_nil, replaceAll_nil]
    rfl
  | cons c s' ih =>
    intro h
    rw [noChar_cons_iff] at h
    have ihs := ih h.2
    unfold parenPass at ihs ⊢
    by_cases hc1 : c = '('
    · subst hc1
      rw [replaceAll_single_cons_eq '(' tempOpen s']
      rw [replaceAll_single_append_notmem ')' ['('] tempOpen _ (by decide)]
      rw [show tempOpen = '_' :: tempOpen.tail from rfl, replaceAll_pat_prefix]
      rw [← show tempOpen = '_' :: tempOpen.tail from rfl, ihs]
      rfl
    · by_cases hc2 : c = ')'
      · subst hc2
        rw [replaceAll_cons_head_ne '(' [] tempOpen ')' s' (by decide)]
        rw [replaceAll_single_cons_eq ')' ['('] _]
        rw [show (['('] : List Char) ++ replaceAll [')'] ['('] (replaceAll ['('] tempOpen s')
            = '(' :: replaceAll [')'] ['('] (replaceAll ['('] tempOpen s') from rfl]
        rw [show tempOpen = '_' :: tempOpen.tail from rfl]
        rw [replaceAll_cons_head_ne '_' tempOpen.tail [')'] '(' _ (by decide)]
        rw [← show tempOpen = '_' :: tempOpen.tail from rfl]
        rw [ihs]
        rfl
      · rw [replaceAll_cons_head_ne '(' [] tempOpen c s' (fun he => hc1 he.symm)]
        rw [replaceAll_cons_head_ne ')' [] ['('] c _ (fun he => hc2 he.symm)]
        rw [show tempOpen = '_' :: tempOpen.tail from rfl]
        rw [replaceAll_cons_head_ne '_' tempOpen.tail [')'] c _ (fun he => h.1 he.symm)]
        rw [← show tempOpen = '_' :: tempOpen.tail from rfl]
        rw [ihs]
        simp only [List.map_cons]
        rw [show swapParen c = c by unfold swapParen; rw [if_neg hc1, if_neg hc2]]

theorem isMarker_swapParen (c : Char) : isMarker (swapParen c) = isMarker c := by
  unfold swapParen
  split_ifs with h1 h2
  · subst h1; decide
  · subst h2; decide
  · rfl

theorem strip_map_swap (s : List Char) :
    stripMarkers (s.map swapParen) = (stripMarkers s).map swapParen := by
  induction s with
  | nil => rfl
  | cons c rest ih =>
    by_cases hm : isMarker c
    · simp only [List.map_cons, stripMarkers, List.filter_cons, isMarker_swapParen, hm]
      simpa [stripMarkers] using ih
    · rw [Bool.not_eq_true] at hm
      simp only [List.map_cons, stripMarkers, List.filter_cons, isMarker_swapParen, hm,
        Bool.not_false, if_true, List.cons.injEq]
      exact ⟨trivial, by simpa [stripMarkers] using ih⟩

theorem parenPass_id (s : List Char) (h1 : noChar '(' s = true) (h2 : noChar ')' s = true)
    (h3 : containsSeq tempOpen s = false) : parenPass s = s := by
  unfold parenPass
  rw [replaceAll_id_of_not_contains _ _ s (noChar_containsSeq_single '(' s h1)]
  rw [replaceAll_id_of_not_contains _ _ s (noChar_containsSeq_single ')' s h2)]
  rw [replaceAll_id_of_not_contains _ _ s h3]

/-- With no `<` in the input, the `<br>`, style and leftover-tag passes are
all identities, so preprocessing is auto-LTR wrapping followed by the
parenthesis pass. -/
theorem preprocess_reduce (t : List Char) (h : noChar '<' t = true) :
    preprocessText t = parenPass (ltrWrapPass t) := by
  unfold preprocessText
  simp only []
  rw [brPass_id t h]
  rw [styleFixN_id _ _ _ _ t h, styleFixN_id _ _ _ _ t h, styleFixN_id _ _ _ _ t h,
    styleFixN_id _ _ _ _ t h]
  rw [removeTags_id _ (noChar_ltrWrap '<' t h (by decide) (by decide))]

theorem renderJustifiedLine_fallback (p : Printer) (doc : DocState)
    (words : List (List Char)) (sx y : ℚ) (st : StyleState)
    (h : (words.length : ℤ) - 1 ≤ 0) :
    renderJustifiedLine p doc words sx y st = renderRegularLine p doc words sx y st := by
  unfold renderJustifiedLine
  rw [sumWordWidths_eq]
  simp only []
  rw [if_pos h]

/-- `renderLine`'s dispatch together with `renderJustifiedLine`'s no-gap
fallback: the justified distribution runs exactly when
`justifiedRenderApplies`. -/
theorem renderLine_dispatch (p : Printer) (doc : DocState) (words : List (List Char))
    (sx y : ℚ) (jarg : Bool) (st : StyleState) :
    renderLine p doc words sx y jarg st
      = if justifiedRenderApplies p jarg words = true
        then (renderJustifiedLine p doc words sx y st).1
        else (renderRegularLine p doc words sx y st).1 := by
  unfold renderLine justifiedRenderApplies
  by_cases h1 : jarg = true ∧ p.align = Align.right
  · rw [if_pos h1]
    by_cases h2 : 0 < (words.length : ℤ) - 1
    · rw [if_pos (by simp [h1.1, h1.2, h2])]
    · rw [renderJustifiedLine_fallback p doc words sx y st (by omega)]
      rw [if_neg (by simp [h2])]
  · rw [if_neg h1]
    rw [if_neg (by
      intro hcon
      simp only [Bool.and_eq_true, decide_eq_true_eq] at hcon
      exact h1 ⟨hcon.1.1, hcon.1.2⟩)]

/-! ### Concrete fixtures for witnesses and counterexamples -/

/-- A width oracle counting one unit per character, independent of font. -/
def wLen : Font → List Char → ℚ := fun _ s => (s.length : ℚ)

def docT : DocState :=
  ⟨wLen, 200, 300, ⟨"Vazir", "normal"⟩, 10, 1, (0, 0, 0), ([], 0), []⟩

def cfgT (mw : ℚ) : RtlPrinterConfig :=
  ⟨mw, 8, none, none, none, none, none, none, none, none, "Vazir", some false, none, none⟩

def docP : DocState :=
  ⟨wLen, 200, 100, ⟨"Vazir", "normal"⟩, 10, 1, (0, 0, 0), ([], 0), []⟩

/-- The page-break fixture of the specification: pageHeight 100, footerHeight
10, marginBottom 10, lineHeight 10, with a page-break callback. -/
def cfgPB : RtlPrinterConfig :=
  ⟨30, 10, none, none, none, none, some 10, some 10, none,
    some (fun n => 40 + (n : ℚ)), "Vazir", some false, none, none⟩

def pPB : Printer := mkPrinter docP cfgPB

/-! ### Closed-form equations for single loop steps, used to evaluate
concrete runs of the line breaker -/

/-- The loop body when the word fits: it is appended to the current line. -/
theorem renderWordsStep_append_eq (p : Printer) (j : Bool) (sx sw : ℚ) (acc : WrapAcc)
    (w : List Char)
    (h : ¬(acc.lineWidth + wordWidthPure p acc.doc.measureW w acc.state
        + (if 0 < acc.lineWords.length then sw else 0) > p.maxWidth)) :
    renderWordsStep p j sx sw acc w
      = { acc with
          lineWords := acc.lineWords ++ [w]
          lineWidth := acc.lineWidth + wordWidthPure p acc.doc.measureW w acc.state
            + (if 0 < acc.lineWords.length then sw else 0)
          state := nextStateOf w acc.state } := by
  unfold renderWordsStep
  simp only [getWordWidthWithState_eq]
  rw [if_neg h]

/-- The loop body when the word does not fit: the current line is rendered
and the word opens a new line. -/
theorem renderWordsStep_break_eq (p : Printer) (j : Bool) (sx sw : ℚ) (acc : WrapAcc)
    (w : List Char)
    (h : acc.lineWidth + wordWidthPure p acc.doc.measureW w acc.state
        + (if 0 < acc.lineWords.length then sw else 0) > p.maxWidth) :
    renderWordsStep p j sx sw acc w
      = { y := (checkPageBreak p acc.doc acc.pc acc.y).1 + p.lineHeight
          pc := (checkPageBreak p acc.doc acc.pc acc.y).2.1
          doc := renderLine p (checkPageBreak p acc.doc acc.pc acc.y).2.2 acc.lineWords sx
            (checkPageBreak p acc.doc acc.pc acc.y).1
            (j && decide (1 < acc.lineWords.length)) acc.lineStart
          lineWords := [w]
          lineWidth := wordWidthPure p acc.doc.measureW w acc.state
          state := nextStateOf w acc.state
          lineStart := acc.state
          trace := acc.trace ++ [⟨acc.lineWords, acc.lineStart,
            j && decide (1 < acc.lineWords.length), true⟩] } := by
  unfold renderWordsStep
  simp only [getWordWidthWithState_eq]
  rw [if_pos h]

/-- The final flush when the last line is non-empty. -/
theorem renderWordsFinish_pos_eq (p : Printer) (sx : ℚ) (acc : WrapAcc)
    (h : 0 < acc.lineWords.length) :
    renderWordsFinish p sx acc
      = { acc with
          y := (checkPageBreak p acc.doc acc.pc acc.y).1 + p.lineHeight
          pc := (checkPageBreak p acc.doc acc.pc acc.y).2.1
          doc := renderLine p (checkPageBreak p acc.doc acc.pc acc.y).2.2 acc.lineWords sx
            (checkPageBreak p acc.doc acc.pc acc.y).1 false acc.lineStart
          trace := acc.trace ++ [⟨acc.lineWords, acc.lineStart, false, false⟩] } := by
  unfold renderWordsFinish
  simp only []
  rw [if_pos h]

/-! ### Concrete runs of the line breaker -/

/-- Character-count widths, configured maxWidth 6 (effective 1): the single
word `aa` (width 2) does not fit; an empty line is closed and `aa` is
flushed on a line of its own. -/
theorem traceOverwide :
    (renderWords (mkPrinter docT (cfgT 6)) docT 1 [['a', 'a']] 100 10 false).trace
      = [⟨[], StyleState.init, false, true⟩,
         ⟨[['a', 'a']], StyleState.init, false, false⟩] := by
  have hp : parseSegmentsWithState ['a', 'a'] StyleState.init
      = ([⟨['a', 'a'], false, false, false, false⟩], StyleState.init) := by decide
  unfold renderWords
  norm_num [List.foldl, renderWordsStep_append_eq, renderWordsStep_break_eq,
    renderWordsFinish_pos_eq, wordWidthPure, nextStateOf, hp, segQueries, queriesWidth,
    localizedText, styleFont, mkPrinter, cfgT, docT, wLen, getTextWidth]

/-- Character-count widths, configured maxWidth 10 (effective 5): `a` and `b`
pack onto one line (content width 3) which is flushed unjustified. -/
theorem tracePair :
    (renderWords (mkPrinter docT (cfgT 10)) docT 1 [['a'], ['b']] 100 10 false).trace
      = [⟨[['a'], ['b']], StyleState.init, false, false⟩] := by
  have hpa : parseSegmentsWithState ['a'] StyleState.init
      = ([⟨['a'], false, false, false, false⟩], StyleState.init) := by decide
  have hpb : parseSegmentsWithState ['b'] StyleState.init
      = ([⟨['b'], false, false, false, false⟩], StyleState.init) := by decide
  unfold renderWords
  norm_num [List.foldl, renderWordsStep_append_eq, renderWordsStep_break_eq,
    renderWordsFinish_pos_eq, wordWidthPure, nextStateOf, hpa, hpb, segQueries,
    queriesWidth, localizedText, styleFont, mkPrinter, cfgT, docT, wLen, getTextWidth]

/-- Character-count widths, configured maxWidth 10 (effective 5), justify
requested: `a b` fits (width 3), `cccc` overflows (3 + 4 + 1 > 5), so the
two-word line is rendered justified mid-paragraph and `cccc` is flushed. -/
theorem traceJustified :
    (renderWords (mkPrinter docT (cfgT 10)) docT 1 [['a'], ['b'], ['c', 'c', 'c', 'c']]
        100 10 true).trace
      = [⟨[['a'], ['b']], StyleState.init, true, true⟩,
         ⟨[['c', 'c', 'c', 'c']], StyleState.init, false, false⟩] := by
  have hpa : parseSegmentsWithState ['a'] StyleState.init
      = ([⟨['a'], false, false, false, false⟩], StyleState.init) := by decide
  have hpb : parseSegmentsWithState ['b'] StyleState.init
      = ([⟨['b'], false, false, false, false⟩], StyleState.init) := by decide
  have hpc : parseSegmentsWithState ['c', 'c', 'c', 'c'] StyleState.init
      = ([⟨['c', 'c', 'c', 'c'], false, false, false, false⟩], StyleState.init) := by decide
  unfold renderWords
  norm_num [List.foldl, renderWordsStep_append_eq, renderWordsStep_break_eq,
    renderWordsFinish_pos_eq, wordWidthPure, nextStateOf, hpa, hpb, hpc, segQueries,
    queriesWidth, localizedText, styleFont, mkPrinter, cfgT, docT, wLen, getTextWidth]

/-- Character-count widths, configured maxWidth 6 (effective 1): a word
opening a bold scope fits alone; the next word breaks the line, and the new
line starts in the bold state. -/
theorem traceBold :
    (renderWords (mkPrinter docT (cfgT 6)) docT 1 [[boldStart, 'a'], ['b']] 100 10
        false).trace
      = [⟨[[boldStart, 'a']], StyleState.init, false, true⟩,
         ⟨[['b']], ⟨true, false, false, false⟩, false, false⟩] := by
  have hpa : parseSegmentsWithState [boldStart, 'a'] StyleState.init
      = ([⟨['a'], true, false, false, false⟩], ⟨true, false, false, false⟩) := by decide
  have hpb : parseSegmentsWithState ['b'] (⟨true, false, false, false⟩ : StyleState)
      = ([⟨['b'], true, false, false, false⟩], ⟨true, false, false, false⟩) := by decide
  unfold renderWords
  norm_num [List.foldl, renderWordsStep_append_eq, renderWordsStep_break_eq,
    renderWordsFinish_pos_eq, wordWidthPure, nextStateOf, hpa, hpb, segQueries,
    queriesWidth, localizedText, styleFont, mkPrinter, cfgT, docT, wLen, getTextWidth]

/-! ### The claims -/

/-- C1: for every word string and incoming style vector, measurement and
rendering are consistent: the outgoing style vectors coincide; the renderer's
cursor advances left by exactly the measured word width; the (font, string)
pairs the renderer paints are exactly the measurement queries — per segment
the style font together with the text digit-localized exactly when
localization is enabled and the segment is not forced-LTR; and the measured
width is the sum of the widths of those same query strings. -/
theorem C1_measure_paint_consistency (p : Printer) (doc : DocState) (word : List Char)
    (x y : ℚ) (st : StyleState) :
    (getWordWidthWithState p doc word st).2.1 = (renderWordWithState p doc word x y st).2.2 ∧
    (renderWordWithState p doc word x y st).2.1 = x - (getWordWidthWithState p doc word st).1 ∧
    textEventsOf (renderWordWithState p doc word x y st).1.events
      = textEventsOf doc.events ++ segQueries p (parseSegmentsWithState word st).1 ∧
    (getWordWidthWithState p doc word st).1
      = queriesWidth doc.measureW (segQueries p (parseSegmentsWithState word st).1) := by
  obtain ⟨_, hx, hs, he, _⟩ := renderWordWithState_spec p doc word x y st
  rw [getWordWidthWithState_eq]
  exact ⟨hs.symm, by rw [hx], he, rfl⟩

/-- C2 counterexample: with character-count widths and configured maxWidth 6
(effective maximum 1), the single word `aa` is wider than the effective
maximum and is rendered on a line of its own with content width 2 > 1, so the
claimed bound does not hold for every rendered line. -/
theorem C2_counterexample :
    ¬ (∀ rec ∈ (renderWords (mkPrinter docT (cfgT 6)) docT 1 [['a', 'a']] 100 10
        false).trace,
      lineContentWidth (mkPrinter docT (cfgT 6)) docT.measureW (getTextWidth docT [' '])
        rec.startState rec.words ≤ (mkPrinter docT (cfgT 6)).maxWidth) := by
  intro hall
  have hp : parseSegmentsWithState ['a', 'a'] StyleState.init
      = ([⟨['a', 'a'], false, false, false, false⟩], StyleState.init) := by decide
  have hmem : (⟨[['a', 'a']], StyleState.init, false, false⟩ : LineRec)
      ∈ (renderWords (mkPrinter docT (cfgT 6)) docT 1 [['a', 'a']] 100 10 false).trace := by
    rw [traceOverwide]
    exact List.mem_cons_of_mem _ (List.mem_cons_self _ _)
  have h := hall _ hmem
  norm_num [lineContentWidth, wordsWidthPure, wordWidthPure, nextStateOf, hp, segQueries,
    queriesWidth, localizedText, styleFont, mkPrinter, cfgT, docT, wLen, getTextWidth] at h

/-- C2 (amended): the line breaker packs greedily — a word opens a new line
(one more rendered line in the trace) exactly when currentLineWidth +
wordWidth + (spaceWidth if the line is non-empty) exceeds the effective
maximum width, which is the configured maxWidth minus the safety buffer of 5;
consequently every rendered line with at least two words satisfies
sum(wordWidths) + (n-1)·spaceWidth ≤ effective maximum.  (A single word wider
than the effective maximum occupies a line of its own and may exceed it,
refuting the bound as claimed for all lines.) -/
theorem C2_greedy_wrap_bound (cfg : RtlPrinterConfig) (doc : DocState) (pc : ℕ)
    (words : List (List Char)) (startX startY : ℚ) (justify : Bool) :
    (mkPrinter doc cfg).maxWidth = cfg.maxWidth - 5 ∧
    (∀ (acc : WrapAcc) (word : List Char),
      ((renderWordsStep (mkPrinter doc cfg) justify startX (getTextWidth doc [' ']) acc
          word).trace.length = acc.trace.length + 1)
      ↔ acc.lineWidth + wordWidthPure (mkPrinter doc cfg) acc.doc.measureW word acc.state
          + (if 0 < acc.lineWords.length then getTextWidth doc [' '] else 0)
          > (mkPrinter doc cfg).maxWidth) ∧
    ∀ rec ∈ (renderWords (mkPrinter doc cfg) doc pc words startX startY justify).trace,
      2 ≤ rec.words.length →
      lineContentWidth (mkPrinter doc cfg) doc.measureW (getTextWidth doc [' '])
        rec.startState rec.words ≤ (mkPrinter doc cfg).maxWidth := by
  refine ⟨rfl, ?_, ?_⟩
  · intro acc word
    unfold renderWordsStep
    simp only [getWordWidthWithState_eq]
    split_ifs with hsp hbr hbr
    · exact iff_of_true (by simp) hbr
    · exact iff_of_false (by simp) hbr
    · exact iff_of_true (by simp) hbr
    · exact iff_of_false (by simp) hbr
  · intro rec hrec hlen
    exact ((renderWords_trace_facts (mkPrinter doc cfg) doc pc words startX startY
      justify).1 rec hrec).1 hlen

/-- C2 witness: words of widths 1 and 1 with space width 1 pack onto one line
under effective maximum 5, and that two-word line satisfies the bound
1 + 1 + 1 ≤ 5. -/
theorem C2_witness :
    lineContentWidth (mkPrinter docT (cfgT 10)) docT.measureW (getTextWidth docT [' '])
      StyleState.init [['a'], ['b']] ≤ (mkPrinter docT (cfgT 10)).maxWidth := by
  have hmem : (⟨[['a'], ['b']], StyleState.init, false, false⟩ : LineRec)
      ∈ (renderWords (mkPrinter docT (cfgT 10)) docT 1 [['a'], ['b']] 100 10 false).trace := by
    rw [tracePair]
    exact List.mem_cons_self _ _
  exact (C2_greedy_wrap_bound (cfgT 10) docT 1 [['a'], ['b']] 100 10 false).2.2
    ⟨[['a'], ['b']], StyleState.init, false, false⟩ hmem (by decide)

/-- C3 counterexample: the plain literal text `(a)` contains no tags and no
marker sentinels, yet preprocess-then-strip does not return it unchanged —
the parentheses are mirrored. -/
theorem C3_counterexample :
    stripMarkers (preprocessText ("(a)".toList)) ≠ "(a)".toList := by
  rw [preprocess_reduce _ (by decide)]
  rw [parenMirror _ (noChar_ltrWrap '_' _ (by decide) (by decide) (by decide))]
  rw [strip_map_swap]
  rw [strip_ltrWrap _ (by decide)]
  decide

/-- C3 (amended): preprocessing (marker insertion, including the automatic
LTR wrapping) followed by marker stripping returns a plain literal text
unchanged, provided the text contains no `<` character (hence no tags), no
marker sentinels, and additionally no parentheses — parentheses are mirrored
by preprocessing and do not round-trip. -/
theorem C3_strip_roundtrip (t : List Char) (hlt : noChar '<' t = true)
    (hmf : markerFree t = true) (hop : noChar '(' t = true)
    (hcl : noChar ')' t = true) :
    stripMarkers (preprocessText t) = t := by
  rw [preprocess_reduce t hlt]
  rw [parenPass_id (ltrWrapPass t)
      (noChar_ltrWrap '(' t hop (by decide) (by decide))
      (noChar_ltrWrap ')' t hcl (by decide) (by decide))
      (noUL_no_tempOpen _ (ltrWrap_noUL t hmf))]
  exact strip_ltrWrap t hmf

/-- C3 witness: the paren-free literal `ab_1 x` round-trips through
preprocessing and stripping. -/
theorem C3_witness : stripMarkers (preprocessText ("ab_1 x".toList)) = "ab_1 x".toList :=
  C3_strip_roundtrip ("ab_1 x".toList) (by decide) (by decide) (by decide) (by decide)

/-- C4: the page-break check fires exactly when y + lineHeight + 2 exceeds
pageHeight - footerHeight - marginBottom.  On firing it requests one new page
from the surface, increments the page counter by one, and returns the
configured callback applied to the new page number, or marginTop +
headerHeight when no callback is configured; otherwise it returns y unchanged
with the counter and surface untouched (no page request). -/
theorem C4_page_break (p : Printer) (doc : DocState) (pc : ℕ) (y : ℚ) :
    (y + p.lineHeight + 2 > p.pageHeight - p.footerHeight - p.marginBottom →
      checkPageBreak p doc pc y
        = ((match p.onPageBreak with
            | some f => f (pc + 1)
            | none => p.marginTop + p.headerHeight), pc + 1, addPage doc)) ∧
    (¬ (y + p.lineHeight + 2 > p.pageHeight - p.footerHeight - p.marginBottom) →
      checkPageBreak p doc pc y = (y, pc, doc)) := by
  constructor <;> intro h <;> unfold checkPageBreak <;> simp only []
  · rw [if_pos h]
    cases p.onPageBreak <;> rfl
  · rw [if_neg h]

/-- C4 witness: with pageHeight 100, footerHeight 10, marginBottom 10,
lineHeight 10 and the callback n ↦ 40 + n, a line requested at y = 81
triggers a break (93 > 80), requests one page, moves the counter from 1 to 2
and returns 42 = callback 2. -/
theorem C4_witness : checkPageBreak pPB docP 1 81 = (42, 2, addPage docP) := by
  have h := (C4_page_break pPB docP 1 81).1 (by norm_num [pPB, mkPrinter, cfgPB, docP])
  rw [h]
  norm_num [pPB, mkPrinter, cfgPB]

/-- C5: a line is actually rendered by the justified distribution only when
justification was requested for the paragraph, the alignment is right, the
line has more than one word, and the line came from a mid-paragraph break;
the final flushed line of a paragraph never has the justified distribution
applied. -/
theorem C5_justified_only_when (p : Printer) (doc : DocState) (pc : ℕ)
    (words : List (List Char)) (startX startY : ℚ) (justify : Bool) :
    (∀ rec ∈ (renderWords p doc pc words startX startY justify).trace,
      justifiedRenderApplies p rec.justifyArg rec.words = true →
      justify = true ∧ p.align = Align.right ∧ 1 < rec.words.length ∧
        rec.fromBreak = true) ∧
    (∀ rec ∈ (renderWords p doc pc words startX startY justify).trace,
      rec.fromBreak = false →
      justifiedRenderApplies p rec.justifyArg rec.words = false) := by
  have hf := (renderWords_trace_facts p doc pc words startX startY justify).1
  constructor
  · intro rec hrec happ
    by_cases hb : rec.fromBreak = true
    · have hj := (hf rec hrec).2.1 hb
      rw [hj] at happ
      simp only [justifiedRenderApplies, Bool.and_eq_true, decide_eq_true_eq] at happ
      exact ⟨happ.1.1.1, happ.1.2, happ.1.1.2, hb⟩
    · have hb' : rec.fromBreak = false := by simpa using hb
      rw [(hf rec hrec).2.2 hb'] at happ
      simp [justifiedRenderApplies] at happ
  · intro rec hrec hb
    rw [(hf rec hrec).2.2 hb]
    simp [justifiedRenderApplies]

/-- C5 witness: in the three-word justified run that breaks after `a b`, the
justified-rendered line indeed comes from a paragraph with justification
requested, right alignment, two words, and a mid-paragraph break. -/
theorem C5_witness :
    (true : Bool) = true ∧ (mkPrinter docT (cfgT 10)).align = Align.right ∧
      1 < ([['a'], ['b']] : List (List Char)).length ∧ (true : Bool) = true :=
  (C5_justified_only_when (mkPrinter docT (cfgT 10)) docT 1
      [['a'], ['b'], ['c', 'c', 'c', 'c']] 100 10 true).1
    ⟨[['a'], ['b']], StyleState.init, true, true⟩
    (by rw [traceJustified]; exact List.mem_cons_self _ _)
    (by decide)

/-- C6: the style vector recorded as a rendered line's starting state is the
fold of the marker transitions of all words on all previous lines from the
initial state — the state in effect before the line's first word is consumed,
so a style scope opened on an earlier line is re-derived correctly at the new
line's first character. -/
theorem C6_line_start_state (p : Printer) (doc : DocState) (pc : ℕ)
    (words : List (List Char)) (startX startY : ℚ) (justify : Bool) :
    ∀ (k : ℕ) (rec : LineRec),
      (renderWords p doc pc words startX startY justify).trace.get? k = some rec →
      rec.startState
        = stateAfter
            (traceWords ((renderWords p doc pc words startX startY justify).trace.take k))
            StyleState.init :=
  (renderWords_trace_facts p doc pc words startX startY justify).2

/-- C6 witness: a word opening a bold scope ends line one; line two starts in
the bold state — exactly the fold of line one's words from the initial
state — so its word `b` renders bold. -/
theorem C6_witness :
    (⟨[['b']], ⟨true, false, false, false⟩, false, false⟩ : LineRec).startState
      = stateAfter
          (traceWords ((renderWords (mkPrinter docT (cfgT 6)) docT 1
              [[boldStart, 'a'], ['b']] 100 10 false).trace.take 1))
          StyleState.init :=
  C6_line_start_state (mkPrinter docT (cfgT 6)) docT 1 [[boldStart, 'a'], ['b']] 100 10
    false 1 ⟨[['b']], ⟨true, false, false, false⟩, false, false⟩
    (by rw [traceBold]; rfl)

/-- C7: segmentation is exactly the character-level state machine — the word
is split on the eight marker sentinels, each marker flips exactly one boolean
of the vector (START to true, END to false, with no nesting depth), each
non-empty marker-free run becomes a segment snapshotting the vector, and the
final vector is returned; as a pure function of (word, state) it is the same
on every call with the same inputs. -/
theorem C7_parse_state_machine :
    (∀ (word : List Char) (st : StyleState),
      parseSegmentsWithState word st = segDirect word st) ∧
    (∀ st : StyleState,
      applyMarker boldStart st = { st with isBold := true } ∧
      applyMarker boldEnd st = { st with isBold := false } ∧
      applyMarker underlineStart st = { st with isUnderline := true } ∧
      applyMarker underlineEnd st = { st with isUnderline := false } ∧
      applyMarker strikeStart st = { st with isStrike := true } ∧
      applyMarker strikeEnd st = { st with isStrike := false } ∧
      applyMarker ltrStart st = { st with isLtr := true } ∧
      applyMarker ltrEnd st = { st with isLtr := false }) := by
  constructor
  · intro word st
    exact parse_eq_segDirect_aux word.length word st (le_refl _)
  · intro st
    refine ⟨rfl, ?_, ?_, ?_, ?_, ?_, ?_, ?_⟩ <;> rfl

/-- C8: for a justified line with N ≥ 2 words the renderer is exactly the
gap walk with gap width spaceWidth + (maxWidth - totalWordsWidth -
spaceWidth·(N-1)) / (N-1) — the shortfall distributed evenly with no
clamping — and under exact arithmetic the cursor after the last word sits at
startX - maxWidth; when the first word has at least one segment, its first
glyph run is painted at exactly startX. -/
theorem C8_justified_geometry (p : Printer) (doc : DocState) (words : List (List Char))
    (startX y : ℚ) (initState : StyleState) (h2 : 2 ≤ words.length) :
    renderJustifiedLine p doc words startX y initState
      = ((renderWalk p
          (getTextWidth doc [' '] +
            (p.maxWidth - wordsWidthPure p doc.measureW initState words -
              getTextWidth doc [' '] * ((words.length : ℚ) - 1)) / ((words.length : ℚ) - 1))
          doc.fontSize y false doc startX initState words).1,
        (renderWalk p
          (getTextWidth doc [' '] +
            (p.maxWidth - wordsWidthPure p doc.measureW initState words -
              getTextWidth doc [' '] * ((words.length : ℚ) - 1)) / ((words.length : ℚ) - 1))
          doc.fontSize y false doc startX initState words).2.1) ∧
    (renderJustifiedLine p doc words startX y initState).2 = startX - p.maxWidth ∧
    (∀ w ws, words = w :: ws → (parseSegmentsWithState w initState).1 ≠ [] →
      (textXs (renderJustifiedLine p doc words startX y initState).1.events).get?
        (textXs doc.events).length = some startX) := by
  have heq := renderJustifiedLine_eq_walk p doc words startX y initState h2
  obtain ⟨wm, wst, wx, wex, wtop⟩ := renderWalk_spec p
    (getTextWidth doc [' '] +
      (p.maxWidth - wordsWidthPure p doc.measureW initState words -
        getTextWidth doc [' '] * ((words.length : ℚ) - 1)) / ((words.length : ℚ) - 1))
    doc.fontSize y false words doc startX initState
  have hN : ((words.length : ℚ) - 1) ≠ 0 := by
    have h2q : (2 : ℚ) ≤ (words.length : ℚ) := by exact_mod_cast h2
    intro hcon
    have h1q : (words.length : ℚ) = 1 := by linarith
    rw [h1q] at h2q
    norm_num at h2q
  refine ⟨heq, ?_, ?_⟩
  · rw [heq]
    simp only []
    rw [wx (by intro hcon; rw [hcon] at h2; simp at h2)]
    field_simp
  · intro w ws hww hne
    rw [heq]
    simp only []
    obtain ⟨t, ht⟩ := wtop w ws hww hne
    rw [ht]
    exact get?_append_cons _ _ _

/-- C8 witness: two words of width 2 each, space width 1, effective maximum
50 (configured 55): the justified cursor after the last word ends at
100 - 50 = 50. -/
theorem C8_witness :
    (renderJustifiedLine (mkPrinter docT (cfgT 55)) docT [['a', 'b'], ['c', 'd']]
        100 20 StyleState.init).2 = 50 := by
  have h := (C8_justified_geometry (mkPrinter docT (cfgT 55)) docT
    [['a', 'b'], ['c', 'd']] 100 20 StyleState.init (by decide)).2.1
  rw [h]
  norm_num [mkPrinter, cfgT]

/-- C9: measurement is side-effect free on the drawing surface — despite the
per-segment font switches, `getWordWidthWithState` hands the surface back in
exactly its pre-call state (font, font size, draw settings and event log all
unchanged). -/
theorem C9_measurement_frame (p : Printer) (doc : DocState) (word : List Char)
    (st : StyleState) :
    (getWordWidthWithState p doc word st).2.2 = doc := by
  rw [getWordWidthWithState_eq]

/-- C10: the undocumented parenthesis mirroring — on plain literal text (no
`<`, no marker sentinels, no underscore), preprocessing then stripping yields
the input with every `(` turned into `)` and every `)` into `(`; in
particular a parenthesised input does not round-trip. -/
theorem C10_paren_mirroring (t : List Char) (hlt : noChar '<' t = true)
    (hmf : markerFree t = true) (hus : noChar '_' t = true) :
    stripMarkers (preprocessText t) = t.map swapParen := by
  rw [preprocess_reduce t hlt]
  rw [parenMirror (ltrWrapPass t) (noChar_ltrWrap '_' t hus (by decide) (by decide))]
  rw [strip_map_swap]
  rw [strip_ltrWrap t hmf]

/-- C10 witness: `(x)` preprocess-then-strips to `)x(`, which differs from
the original input. -/
theorem C10_witness :
    stripMarkers (preprocessText ("(x)".toList)) = ")x(".toList ∧
    stripMarkers (preprocessText ("(x)".toList)) ≠ "(x)".toList := by
  have h := C10_paren_mirroring ("(x)".toList) (by decide) (by decide) (by decide)
  rw [h]
  constructor
  · decide
  · decide

end RtlSupport
